import Mathlib

/-!
# go-mc packet combinators and per-player packet queue

A shallow embedding of `net/packet/util.go` (`Ary`, `Opt`, `Tuple`),
`server/player.go` (`PacketQueue`, `Player`) and `server/chat.go`
(`GlobalChat`), with theorems about their behaviour.

Conventions of the embedding.

* A call of `WriteTo`/`ReadFrom` either returns `(n, err)` and leaves a state
  behind, or panics: `Result.ret n err st` and `Result.panic`.
* A `FieldDecoder` method on `*A` is a function of the destination's current
  value and the byte source, returning the destination's new value and the
  source's new state.  A `FieldEncoder` method is a function of the sink.
* Byte counts are Go `int64` values counting bytes moved on one stream; they
  are carried as `Int`.  The conversion `L(len(a))` to a length wire-type is
  where the machine width matters, and it is modelled with its wrap-around.
-/

namespace GoMc

/-! ## Results of codec calls -/

/-- Go `error` values that the embedded code can see. -/
inductive Error where
  | EOF
  | ErrUnexpectedEOF
  | other (code : Nat)
  deriving DecidableEq, Repr

/-- Outcome of one `WriteTo`/`ReadFrom` call: the returned `(n, err)` together
with the state left behind, or a panic. -/
inductive Result (σ : Type) where
  | ret (n : Int) (err : Option Error) (st : σ)
  | panic
  deriving DecidableEq, Repr

/-! ## `Ary[L, A]` (util.go, lines 9-57) -/

/-- The operations `Ary` uses of a length wire-type `L` of the constraint
`Integers`: the conversion `L(x)` from `int`, and the methods `L.WriteTo` and
`(*L).ReadFrom`. -/
structure LenType (R W : Type) where
  conv : Int → Int
  WriteTo : Int → W → Result W
  ReadFrom : Int → R → Result (Int × R)

/-- The operations `Ary` uses of its element type `A`: the zero value that
`make` fills in, the largest length that `make([]A, n)` accepts (the
allocation limit of the runtime over the size of `A`),
`any(v).(FieldEncoder)` for a value `v`, and `any(&x).(FieldDecoder)` for an
addressable element; `none` is a failed type assertion. -/
structure ElemType (A R W : Type) where
  zero : A
  maxLen : Nat
  encoder : A → Option (W → Result W)
  decoder : Option (A → R → Result (A × R))

/-- The loop `for _, v := range a` of `Ary.WriteTo`, entered with the count
`n` accumulated so far. -/
def Ary.writeLoop {A R W : Type} (E : ElemType A R W) : List A → Int → W → Result W
  | [], n, w => .ret n none w
  | v :: vs, n, w =>
    match E.encoder v with
    | none => .panic
    | some enc =>
      match enc w with
      | .panic => .panic
      | .ret nn err w1 =>
        if err.isSome then .ret (n + nn) err w1
        else Ary.writeLoop E vs (n + nn) w1

/-- `func (a Ary[L, A]) WriteTo(r io.Writer) (n int64, err error)`. -/
def Ary.WriteTo {A R W : Type} (L : LenType R W) (E : ElemType A R W)
    (a : List A) (w : W) : Result W :=
  match L.WriteTo (L.conv (a.length : Int)) w with
  | .panic => .panic
  | .ret n err w1 =>
    if err.isSome then .ret n err w1
    else Ary.writeLoop E a n w1

/-- The loop `for i := range *a` of `Ary.ReadFrom` over the slots still to be
decoded, entered with the count `n` accumulated so far; the state returned
holds these slots after the loop. -/
def Ary.readLoop {A R W : Type} (E : ElemType A R W) : List A → Int → R → Result (List A × R)
  | [], n, r => .ret n none ([], r)
  | x :: xs, n, r =>
    match E.decoder with
    | none => .panic
    | some dec =>
      match dec x r with
      | .panic => .panic
      | .ret nn err (x1, r1) =>
        if err.isSome then .ret (n + nn) err (x1 :: xs, r1)
        else
          match Ary.readLoop E xs (n + nn) r1 with
          | .panic => .panic
          | .ret m e (ys, r2) => .ret m e (x1 :: ys, r2)

/-- The builtin `make([]A, length)`: a run-time panic ("len out of range")
on a negative length and on a length above `maxLen`, otherwise `length` zero
values. -/
def makeSlice {A : Type} (maxLen : Nat) (zero : A) (length : Int) : Option (List A) :=
  if length < 0 ∨ (maxLen : Int) < length then none
  else some (List.replicate length.toNat zero)

/-- `func (a *Ary[L, A]) ReadFrom(r io.Reader) (n int64, err error)`; `a` is
the value of `*a` at entry. -/
def Ary.ReadFrom {A R W : Type} (L : LenType R W) (E : ElemType A R W)
    (a : List A) (r : R) : Result (List A × R) :=
  match L.ReadFrom 0 r with
  | .panic => .panic
  | .ret n err (length, r1) =>
    if err.isSome then .ret n err (a, r1)
    else
      match makeSlice E.maxLen E.zero length with
      | none => .panic
      | some slots => Ary.readLoop E slots n r1

/-! ## Byte streams and the length wire-types

`net/packet/types.go`, which declares the primitive field types and their
codecs, is not among the files embedded here; neither are Go's
`bytes.Reader` and `bytes.Buffer`.  The definitions of this section stand in
for them. -/

/-- A byte source in the manner of `bytes.NewReader`: the bytes not read
yet, each below 256. -/
abbrev Reader := List Nat

/-- A byte sink in the manner of `bytes.Buffer`: the bytes written so far;
a write to it never fails. -/
abbrev Buffer := List Nat

/-- `type Integers interface { VarInt | VarLong | Int | Long | Byte |
UnsignedByte | Short | UnsignedShort }` (util.go, lines 9-11). -/
inductive Integers where
  | VarInt
  | VarLong
  | Int
  | Long
  | Byte
  | UnsignedByte
  | Short
  | UnsignedShort
  deriving DecidableEq, Repr

/-- Modelled from the spec: the type declarations of the members of
`Integers` are missing; this is the bit width of each (the spec's "4-byte
integer" for `Int`, and the widths the names `Byte`, `Short`, `Long` stand
for in the protocol). -/
def Integers.bits : Integers → Nat
  | .VarInt => 32
  | .VarLong => 64
  | .Int => 32
  | .Long => 64
  | .Byte => 8
  | .UnsignedByte => 8
  | .Short => 16
  | .UnsignedShort => 16

/-- Modelled from the spec: the type declarations of the members of
`Integers` are missing; only the two types named `Unsigned...` are unsigned. -/
def Integers.signed : Integers → Bool
  | .UnsignedByte => false
  | .UnsignedShort => false
  | _ => true

/-- Modelled from the spec: the type declarations of the members of
`Integers` are missing; `VarInt` and `VarLong` are the "variable-width
integers", the others are "fixed-width integers". -/
def Integers.variable : Integers → Bool
  | .VarInt => true
  | .VarLong => true
  | _ => false

/-- The bit pattern of a value of type `L`, as an unsigned number. -/
def Integers.toUnsigned (L : Integers) (x : ℤ) : Nat :=
  (x % (2 : ℤ) ^ L.bits).toNat

/-- The value of type `L` that a bit pattern stands for (two's complement
for the signed types). -/
def Integers.ofUnsigned (L : Integers) (u : Nat) : ℤ :=
  if L.signed && decide (2 ^ (L.bits - 1) ≤ u % 2 ^ L.bits) then
    ((u % 2 ^ L.bits : Nat) : ℤ) - (2 : ℤ) ^ L.bits
  else ((u % 2 ^ L.bits : Nat) : ℤ)

/-- The Go conversion `L(x)` of an `int`: the low bits of `x`, read as a
value of type `L`. -/
def Integers.conv (L : Integers) (x : ℤ) : ℤ :=
  L.ofUnsigned (L.toUnsigned x)

/-- The largest value of type `L`. -/
def Integers.maxValue (L : Integers) : ℤ :=
  if L.signed then (2 : ℤ) ^ (L.bits - 1) - 1 else (2 : ℤ) ^ L.bits - 1

/-- Modelled from the spec: the codecs of the fixed-width members of
`Integers` are missing; the `k` bytes of `u`, most significant first. -/
def beBytes : Nat → Nat → List Nat
  | 0, _ => []
  | k + 1, u => (u / 256 ^ k) % 256 :: beBytes k u

/-- Modelled from the spec: the codecs of the fixed-width members of
`Integers` are missing; the number that bytes spell, most significant first,
on top of `acc`. -/
def beValue : Nat → List Nat → Nat
  | acc, [] => acc
  | acc, b :: bs => beValue (acc * 256 + b) bs

/-- Modelled from the spec: the codecs of `VarInt` and `VarLong` are
missing; the variable-width bytes of `u`: seven bits a byte, least
significant group first, the top bit of a byte set when more bytes follow; at
most `fuel` bytes. -/
def varBytes : Nat → Nat → List Nat
  | 0, _ => []
  | fuel + 1, u =>
    if u / 128 = 0 then [u % 128]
    else (u % 128 + 128) :: varBytes fuel (u / 128)

/-- Modelled from the spec: the codecs of `VarInt` and `VarLong` are
missing; reading a variable-width number of at most `fuel` bytes: `shift` and
`acc` are the position and the bits gathered so far, `n` the bytes consumed
so far.  The outcome is the count, the error if any (the end of the source,
or a number of more than `fuel` bytes), the number and the unread bytes. -/
def varRead : Nat → Nat → Nat → Int → Reader → Int × Option Error × Nat × Reader
  | 0, _, acc, n, r => (n, some (.other 1), acc, r)
  | _ + 1, _, acc, n, [] => (n, some .EOF, acc, [])
  | fuel + 1, shift, acc, n, b :: r =>
    if b < 128 then (n + 1, none, acc + b * 2 ^ shift, r)
    else varRead fuel (shift + 7) (acc + (b - 128) * 2 ^ shift) (n + 1) r

/-- The most bytes a variable-width value of type `L` takes. -/
def Integers.maxVarLen (L : Integers) : Nat := (L.bits + 6) / 7

/-- Modelled from the spec: the codecs of the members of `Integers` are
missing; these are the bytes `L.WriteTo` writes for `x`: big-endian over the
type's width for the fixed-width types (`00 00 00 02` is the `Int` 2), seven
bits a byte for the variable-width types (`03` is the `VarInt` 3). -/
def Integers.encode (L : Integers) (x : ℤ) : List Nat :=
  if L.variable then varBytes L.maxVarLen (L.toUnsigned x)
  else beBytes (L.bits / 8) (L.toUnsigned x)

/-- Modelled from the spec: the codecs of the members of `Integers` are
missing; `L.WriteTo` on a `bytes.Buffer` appends the encoding and reports
its length. -/
def Integers.WriteTo (L : Integers) (x : ℤ) (w : Buffer) : Result Buffer :=
  .ret ((L.encode x).length : ℤ) none (w ++ L.encode x)

/-- Modelled from the spec: the codecs of the members of `Integers` are
missing; `(*L).ReadFrom` on a byte source.  A fixed-width type takes its
whole width or fails with the count of the bytes that were left ("short reads
... are reported as errors"), leaving the destination `cur` as it was. -/
def Integers.ReadFrom (L : Integers) (cur : ℤ) (r : Reader) : Result (ℤ × Reader) :=
  if L.variable then
    match varRead L.maxVarLen 0 0 0 r with
    | (n, none, u, r1) => .ret n none (L.ofUnsigned u, r1)
    | (n, some e, _, r1) => .ret n (some e) (cur, r1)
  else
    if r.length < L.bits / 8 then
      .ret (r.length : ℤ) (some (if r = [] then .EOF else .ErrUnexpectedEOF)) (cur, [])
    else .ret ((L.bits / 8 : Nat) : ℤ) none
      (L.ofUnsigned (beValue 0 (r.take (L.bits / 8))), r.drop (L.bits / 8))

/-- The dictionary of the length wire-type `L` that `Ary[L, A]` is
instantiated with, over byte-list streams. -/
def Integers.lenType (L : Integers) : LenType Reader Buffer where
  conv := L.conv
  WriteTo := L.WriteTo
  ReadFrom := L.ReadFrom

/-- The element dictionary of a member of `Integers` used as the element
type `A` (as in `Ary[VarInt, Int]`); `make` allocates up to `2 ^ 48` bytes
(a 64-bit runtime). -/
def Integers.elemType (L : Integers) : ElemType ℤ Reader Buffer where
  zero := 0
  maxLen := 2 ^ 48 / (L.bits / 8)
  encoder := fun v => some (L.WriteTo v)
  decoder := some L.ReadFrom

/-- The smallest value of type `L`. -/
def Integers.minValue (L : Integers) : ℤ :=
  if L.signed then -(2 : ℤ) ^ (L.bits - 1) else 0

/-- The encodings of the elements of a sequence, one after the other, when
`bytes v` is the encoding of the element `v`. -/
def Ary.elemBytes {A : Type} (bytes : A → List Nat) : List A → List Nat
  | [] => []
  | v :: vs => bytes v ++ Ary.elemBytes bytes vs

/-- The wire form of a sequence under the length wire-type `L`: the encoding
of `L(len(a))`, then the encodings of the elements in index order. -/
def Ary.wire {A : Type} (L : Integers) (bytes : A → List Nat) (a : List A) : List Nat :=
  L.encode (L.conv (a.length : ℤ)) ++ Ary.elemBytes bytes a

/-- The codec of the element type round-trips on the elements of `a`, with
`bytes v` the encoding of `v`: `WriteTo` appends `bytes v` to a buffer and
reports its length, and `ReadFrom` into a fresh element, on a source that
starts with `bytes v`, stores `v`, reports that length and leaves what
follows unread. -/
def ElemType.RoundTripsOn {A : Type} (E : ElemType A Reader Buffer) (bytes : A → List Nat)
    (a : List A) : Prop :=
  ∀ v ∈ a,
    (∃ enc, E.encoder v = some enc ∧
      ∀ w, enc w = .ret ((bytes v).length : ℤ) none (w ++ bytes v)) ∧
    (∃ dec, E.decoder = some dec ∧
      ∀ rest, dec E.zero (bytes v ++ rest) = .ret ((bytes v).length : ℤ) none (v, rest))

/-! ## `Opt` and `Tuple` (util.go, lines 59-118)

The fields of a `Tuple` are `interface{}` values, most of them pointers into
the caller's variables; `M` is the type of those variables taken together
(the memory the fields point into). -/

/-- An `interface{}` value used as a field: its `FieldDecoder` and
`FieldEncoder` methods when the dynamic type has them. -/
structure Field (M R W : Type) where
  decoder : Option (M → R → Result (M × R))
  encoder : Option (M → W → Result W)

/-- The expression `v.(FieldDecoder).ReadFrom(r)`: the type assertion
panics when `v` has no `ReadFrom`. -/
def Field.ReadFrom {M R W : Type} (v : Field M R W) (m : M) (r : R) : Result (M × R) :=
  match v.decoder with
  | none => .panic
  | some dec => dec m r

/-- The expression `v.(FieldEncoder).WriteTo(w)`: the type assertion panics
when `v` has no `WriteTo`. -/
def Field.WriteTo {M R W : Type} (v : Field M R W) (m : M) (w : W) : Result W :=
  match v.encoder with
  | none => .panic
  | some enc => enc m w

/-- What `reflect.ValueOf(o.Has)` can be, by `Kind`: a boolean, a pointer
(whose `Elem()` is looked up in memory when `has` runs), a function (a
`func() bool` closure over memory, or `none` for a function on which the
assertion `.(func() bool)` or the call fails), or any other kind, among them
the invalid value that `Elem()` of a nil pointer gives. -/
inductive HasValue (M : Type) where
  | bool (b : Bool)
  | ptr (elem : M → HasValue M)
  | func (f : Option (M → Bool))
  | other

/-- `type Opt struct { Has interface{}; Field interface{} }`. -/
structure Opt (M R W : Type) where
  Has : HasValue M
  Field : Field M R W

/-- The loop of `func (o Opt) has() bool` on the reflected value `v`, run
against memory `m`; `none` is a panic. -/
def HasValue.resolve {M : Type} : HasValue M → M → Option Bool
  | .bool b, _ => some b
  | .ptr elem, m => HasValue.resolve (elem m) m
  | .func (some f), m => some (f m)
  | .func none, _ => none
  | .other, _ => none

/-- `func (o Opt) has() bool`; `none` is a panic. -/
def Opt.has {M R W : Type} (o : Opt M R W) (m : M) : Option Bool :=
  o.Has.resolve m

/-- `func (o Opt) WriteTo(w io.Writer) (int64, error)`. -/
def Opt.WriteTo {M R W : Type} (o : Opt M R W) (m : M) (w : W) : Result W :=
  match o.has m with
  | none => .panic
  | some true => o.Field.WriteTo m w
  | some false => .ret 0 none w

/-- `func (o Opt) ReadFrom(r io.Reader) (int64, error)`. -/
def Opt.ReadFrom {M R W : Type} (o : Opt M R W) (m : M) (r : R) : Result (M × R) :=
  match o.has m with
  | none => .panic
  | some true => o.Field.ReadFrom m r
  | some false => .ret 0 none (m, r)

/-- An `Opt` value used as a field: both methods have a value receiver. -/
def Opt.toField {M R W : Type} (o : Opt M R W) : GoMc.Field M R W where
  decoder := some o.ReadFrom
  encoder := some o.WriteTo

/-- `type Tuple []interface{}`. -/
abbrev Tuple (M R W : Type) := List (Field M R W)

/-- The loop of `Tuple.WriteTo` over the fields still to be written, entered
with the count `n` accumulated so far. -/
def Tuple.writeLoop {M R W : Type} : Tuple M R W → Int → M → W → Result W
  | [], n, _, w => .ret n none w
  | v :: t, n, m, w =>
    match v.WriteTo m w with
    | .panic => .panic
    | .ret nn err w1 =>
      if err.isSome then .ret n err w1
      else Tuple.writeLoop t (n + nn) m w1

/-- `func (t Tuple) WriteTo(w io.Writer) (n int64, err error)`. -/
def Tuple.WriteTo {M R W : Type} (t : Tuple M R W) (m : M) (w : W) : Result W :=
  Tuple.writeLoop t 0 m w

/-- The loop of `Tuple.ReadFrom` over the fields still to be read, entered
with the count `n` accumulated so far. -/
def Tuple.readLoop {M R W : Type} : Tuple M R W → Int → M → R → Result (M × R)
  | [], n, m, r => .ret n none (m, r)
  | v :: t, n, m, r =>
    match v.ReadFrom m r with
    | .panic => .panic
    | .ret nn err (m1, r1) =>
      if err.isSome then .ret n err (m1, r1)
      else Tuple.readLoop t (n + nn) m1 r1

/-- `func (t Tuple) ReadFrom(r io.Reader) (n int64, err error)`. -/
def Tuple.ReadFrom {M R W : Type} (t : Tuple M R W) (m : M) (r : R) : Result (M × R) :=
  Tuple.readLoop t 0 m r

/-- The field `&x` for a variable `x` of memory, read by `get` and stored by
`set`, whose type has the decoder `dec` and the encoder `enc`. -/
def Field.ofVar {M A R W : Type} (get : M → A) (set : A → M → M)
    (dec : A → R → Result (A × R)) (enc : A → W → Result W) : Field M R W where
  decoder := some fun m r =>
    match dec (get m) r with
    | .panic => .panic
    | .ret n err (x, r1) => .ret n err (set x m, r1)
  encoder := some fun m w => enc (get m) w

/-! ## Two further primitive field types, used in the examples of
`util_test.go` -/

/-- Modelled from the spec: the codec of `Boolean` is missing
(`net/packet/types.go`); one byte, `01` for true and `00` for false, any
non-zero byte reading as true, a short read reported as an error. -/
def pkBoolean : ElemType Bool Reader Buffer where
  zero := false
  maxLen := 2 ^ 48
  encoder := fun v => some fun w => .ret 1 none (w ++ [if v then 1 else 0])
  decoder := some fun cur r =>
    match r with
    | [] => .ret 0 (some .EOF) (cur, [])
    | b :: r1 => .ret 1 none (decide (b ≠ 0), r1)

/-- Modelled from the spec: the codec of `String` is missing
(`net/packet/types.go`); a "length-prefixed string": the `VarInt` count of
its bytes, then the bytes (`04 54 6e 7a 65` is "Tnze").  A string is held as
its bytes.  A short read is reported as an error with the bytes consumed, a
negative count panics in the allocation of the byte slice. -/
def pkString : ElemType (List Nat) Reader Buffer where
  zero := []
  maxLen := 2 ^ 48 / 16
  encoder := fun v => some fun w =>
    .ret ((Integers.VarInt.encode (Integers.VarInt.conv v.length) ++ v).length : ℤ) none
      (w ++ Integers.VarInt.encode (Integers.VarInt.conv v.length) ++ v)
  decoder := some fun cur r =>
    match Integers.VarInt.ReadFrom 0 r with
    | .panic => .panic
    | .ret n err (l, r1) =>
      if err.isSome then .ret n err (cur, r1)
      else if l < 0 then .panic
      else if r1.length < l.toNat then
        .ret (n + r1.length) (some (if r1 = [] then .EOF else .ErrUnexpectedEOF)) (cur, [])
      else .ret (n + l) none (r1.take l.toNat, r1.drop l.toNat)

/-! ## `PacketQueue` and `Player` (player.go) -/

/-- `pk.Packet`: an opcode and a payload. -/
structure Packet where
  ID : Int
  Data : List Nat
  deriving DecidableEq, Repr

/-- `type PacketQueue struct { queue *list.List; closed bool; cond sync.Cond }`:
the list front first, and the flag.  Every method holds `cond.L` from its
first statement to its last, so each call is one atomic step on this state. -/
structure PacketQueue where
  queue : List Packet
  closed : Bool
  deriving DecidableEq, Repr

/-- `func NewPacketQueue() (p *PacketQueue)`. -/
def NewPacketQueue : PacketQueue where
  queue := []
  closed := false

/-- `func (p *PacketQueue) Push(packet pk.Packet)`. -/
def PacketQueue.Push (p : PacketQueue) (packet : Packet) : PacketQueue :=
  if !p.closed then { p with queue := p.queue ++ [packet] } else p

/-- `func (p *PacketQueue) Pull() (packet pk.Packet, ok bool)`: the returned
pair and the queue afterwards; `none` when the call stays in `cond.Wait()`
(the queue is empty and not closed). -/
def PacketQueue.Pull (p : PacketQueue) : Option ((Packet × Bool) × PacketQueue) :=
  match p.queue, p.closed with
  | [], false => none
  | _, true => some ((⟨0, []⟩, false), p)
  | front :: rest, false => some ((front, true), { p with queue := rest })

/-- `func (p *PacketQueue) Close()`. -/
def PacketQueue.Close (p : PacketQueue) : PacketQueue :=
  { p with closed := true }

/-- One call on a packet queue. -/
inductive QueueOp where
  | push (packet : Packet)
  | pull
  | close
  deriving DecidableEq, Repr

/-- Runs calls one after the other (the order in which they take the lock),
collecting what the `Pull` calls return; `none` when a `Pull` would wait. -/
def PacketQueue.run : List QueueOp → PacketQueue → Option (List (Packet × Bool) × PacketQueue)
  | [], p => some ([], p)
  | .push packet :: ops, p => PacketQueue.run ops (p.Push packet)
  | .close :: ops, p => PacketQueue.run ops p.Close
  | .pull :: ops, p =>
    match p.Pull with
    | none => none
    | some (res, p1) =>
      match PacketQueue.run ops p1 with
      | none => none
      | some (out, p2) => some (res :: out, p2)

/-- The packets that a list of calls pushes, in order. -/
def QueueOp.pushed : List QueueOp → List Packet
  | [] => []
  | .push packet :: ops => packet :: QueueOp.pushed ops
  | _ :: ops => QueueOp.pushed ops

/-- Every `Pull` of the list is issued when the queue holds a packet. -/
def PacketQueue.pullsReady : List QueueOp → PacketQueue → Bool
  | [], _ => true
  | .push packet :: ops, p => PacketQueue.pullsReady ops (p.Push packet)
  | .close :: ops, p => PacketQueue.pullsReady ops p.Close
  | .pull :: ops, p =>
    match p.queue, p.Pull with
    | _ :: _, some (_, p1) => PacketQueue.pullsReady ops p1
    | _, _ => false

/-- A channel of errors with a buffer: `chan error`. -/
structure ErrChan where
  cap : Nat
  buf : List (Option Error)
  deriving DecidableEq, Repr

/-- `type Player struct`; the embedded `*net.Conn` plays no part here.
The packet queue of a player is held by value: every player owns its queue. -/
structure Player where
  Name : String
  UUID : Nat
  EntityID : Int
  Gamemode : Nat
  packetQueue : PacketQueue
  errChan : ErrChan
  deriving DecidableEq, Repr

/-- `func (p *Player) WritePacket(packet Packet757)`. -/
def Player.WritePacket (p : Player) (packet : Packet) : Player :=
  { p with packetQueue := p.packetQueue.Push packet }

/-- `func (p *Player) PutErr(err error)`: the send goes through when the
buffer has room, otherwise the `default` branch runs. -/
def Player.PutErr (p : Player) (err : Option Error) : Player :=
  if p.errChan.buf.length < p.errChan.cap then
    { p with errChan := { p.errChan with buf := p.errChan.buf ++ [err] } }
  else p

/-- `func (p *Player) GetErr() error`: the error returned and the player
afterwards. -/
def Player.GetErr (p : Player) : Option Error × Player :=
  match p.errChan.buf with
  | err :: rest => (err, { p with errChan := { p.errChan with buf := rest } })
  | [] => (none, p)

/-! ## `GlobalChat` (chat.go) -/

/-- The players that `*Player` pointers point to, by address. -/
abbrev Heap := Nat → Player

/-- `type GlobalChat struct`: the map `players` from a player's UUID to the
`*Player`.  The three channels are the source of the events of `Event`. -/
structure GlobalChat where
  players : AList (fun _ : Nat => Nat)

/-- `func NewGlobalChat() *GlobalChat`. -/
def NewGlobalChat : GlobalChat where
  players := ∅

/-- The packets that `Run` builds with `pk.Marshal` and the `chat` package,
neither of them among the files embedded here: the chat packet of a sender
and a text, and the system packets about a player who joined or left. -/
structure ChatPackets where
  chat : Player → String → Packet
  joined : String → Packet
  left : String → Packet

/-- What `Run` receives in one round of its `select`: a `chatItem` from
`g.msg`, a `*Player` from `g.join`, or a `*Player` from `g.quit`. -/
inductive Event where
  | msg (p : Nat) (text : String)
  | join (p : Nat)
  | quit (p : Nat)
  deriving DecidableEq, Repr

/-- `p.WritePacket(packet)` through the pointer at address `addr`. -/
def Heap.WritePacket (h : Heap) (addr : Nat) (packet : Packet) : Heap :=
  Function.update h addr ((h addr).WritePacket packet)

/-- `func (g *GlobalChat) broadcast(packet Packet757)`.  `range` over a map
visits every entry once, in an order that is not fixed; the order of the
entry list stands for the order taken. -/
def GlobalChat.broadcast (g : GlobalChat) (packet : Packet) (h : Heap) : Heap :=
  g.players.entries.foldl (fun h1 e => Heap.WritePacket h1 e.2 packet) h

/-- One round of the loop of `func (g *GlobalChat) Run(ctx context.Context)`
in which an event is received. -/
def GlobalChat.handle (C : ChatPackets) (g : GlobalChat) (h : Heap) : Event → GlobalChat × Heap
  | .msg p text => (g, g.broadcast (C.chat (h p) text) h)
  | .join p =>
    let h1 := g.broadcast (C.joined (h p).Name) h
    ({ players := g.players.insert (h1 p).UUID p }, h1)
  | .quit p =>
    let h1 := g.broadcast (C.left (h p).Name) h
    ({ players := g.players.erase (h1 p).UUID }, h1)

/-- The field `&m[i]`: a pointer to variable number `i` of a memory of
integers, the variable being of the type `L` of `Integers`. -/
def intVar (L : Integers) (i : Nat) : Field (List ℤ) Reader Buffer :=
  Field.ofVar (fun m => m.getD i 0) (fun x m => m.set i x) L.ReadFrom L.WriteTo

/-- The variables of the `Opt` examples of `util_test.go`: the flag (`has`,
`flag`) that the presence source looks at, and the guarded `data`. -/
structure FlagData (F D : Type) where
  flag : F
  data : D
  deriving DecidableEq, Repr

/-- The field `&flag` of the examples. -/
def FlagData.flagField {F D R W : Type} (decF : F → R → Result (F × R))
    (encF : F → W → Result W) : Field (FlagData F D) R W :=
  Field.ofVar (fun m => m.flag) (fun x m => { m with flag := x }) decF encF

/-- The field `&data` of the examples. -/
def FlagData.dataField {F D R W : Type} (decD : D → R → Result (D × R))
    (encD : D → W → Result W) : Field (FlagData F D) R W :=
  Field.ofVar (fun m => m.data) (fun x m => { m with data := x }) decD encD

/-- The field list `&flag, Opt{Has: has, Field: &data}` of the examples. -/
def FlagData.fields {F D R W : Type} (decF : F → R → Result (F × R))
    (encF : F → W → Result W) (decD : D → R → Result (D × R)) (encD : D → W → Result W)
    (has : HasValue (FlagData F D)) : Tuple (FlagData F D) R W :=
  [FlagData.flagField decF encF,
    (Opt.mk has (FlagData.dataField decD encD)).toField]

/-- `Has: &has` for a boolean flag: a pointer whose element is the flag's
current value. -/
def FlagData.hasPtr {D : Type} : HasValue (FlagData Bool D) :=
  .ptr fun m => .bool m.flag

/-- `Has: func() bool { return pred(flag) }`: a closure over the flag. -/
def FlagData.hasFunc {F D : Type} (pred : F → Bool) : HasValue (FlagData F D) :=
  .func (some fun m => pred m.flag)

/-- The decoder `(*A).ReadFrom` of an element type that has one, as used on
a variable of the examples; an absent method panics when called. -/
def ElemType.dec {A R W : Type} (E : ElemType A R W) (x : A) (r : R) : Result (A × R) :=
  match E.decoder with
  | none => .panic
  | some d => d x r

/-- The encoder `A.WriteTo` of an element type, as used on a variable of the
examples; an absent method panics when called. -/
def ElemType.enc {A R W : Type} (E : ElemType A R W) (x : A) (w : W) : Result W :=
  match E.encoder x with
  | none => .panic
  | some e => e w

/-- Every entry of the registry is stored under the UUID of its player, as
the `join` case of `Run` stores it. -/
def GlobalChat.keyed (g : GlobalChat) (h : Heap) : Prop :=
  ∀ e ∈ g.players.entries, (h e.2).UUID = e.1

/-- A heap for the examples: at every address `a` a player of UUID
`100 + a` with a new, empty queue. -/
def exampleHeap : Heap := fun a =>
  { Name := "Tnze", UUID := 100 + a, EntityID := a, Gamemode := 0,
    packetQueue := NewPacketQueue, errChan := ⟨1, []⟩ }

/-- Packets for the examples: payload 0 for a chat message, 1 for "joined",
2 for "left". -/
def examplePackets : ChatPackets where
  chat := fun _ _ => ⟨15, [0]⟩
  joined := fun _ => ⟨15, [1]⟩
  left := fun _ => ⟨15, [2]⟩

/-- The shapes of `Has` on which `has` returns a value, against the memory
`m`: a boolean, a `func() bool`, or a pointer whose element has such a shape
in turn. -/
inductive HasValue.Accepted {M : Type} (m : M) : HasValue M → Prop where
  | bool (b : Bool) : HasValue.Accepted m (.bool b)
  | func (f : M → Bool) : HasValue.Accepted m (.func (some f))
  | ptr (elem : M → HasValue M) : HasValue.Accepted m (elem m) → HasValue.Accepted m (.ptr elem)

/-- Calling each field's own `ReadFrom` one after the other, in declaration
order, on the same source: the counts that the calls return and the memory
and source after the last call; `none` as soon as a call panics or returns
an error. -/
def Tuple.inlineRead {M R W : Type} : Tuple M R W → M → R → Option (List ℤ × M × R)
  | [], m, r => some ([], m, r)
  | v :: t, m, r =>
    match v.ReadFrom m r with
    | .ret nn none (m1, r1) =>
      match Tuple.inlineRead t m1 r1 with
      | some (ns, st) => some (nn :: ns, st)
      | none => none
    | _ => none

/-- Calling each field's own `WriteTo` one after the other, in declaration
order, on the same sink: the counts that the calls return and the sink after
the last call; `none` as soon as a call panics or returns an error. -/
def Tuple.inlineWrite {M R W : Type} : Tuple M R W → M → W → Option (List ℤ × W)
  | [], _, w => some ([], w)
  | v :: t, m, w =>
    match v.WriteTo m w with
    | .ret nn none w1 =>
      match Tuple.inlineWrite t m w1 with
      | some (ns, w2) => some (nn :: ns, w2)
      | none => none
    | _ => none

/-- The field `pk.Int(x)` and its like: a value of the type `L`, not a
pointer.  It has the method `WriteTo`, whose receiver is a value, and lacks
`ReadFrom`, whose receiver is a pointer. -/
def intConst (L : Integers) (x : ℤ) : Field (List ℤ) Reader Buffer where
  decoder := none
  encoder := some fun _ w => L.WriteTo x w

/-- The elements listed in `done`, each with the count its decoder reports,
are decoded with success one after the other, each into a fresh (zero)
element, from the source `r`, and leave the source `r1`. -/
def Ary.Decodes {A R : Type} (dec : A → R → Result (A × R)) (zero : A) :
    List (A × ℤ) → R → R → Prop
  | [], r, r1 => r1 = r
  | (x, nn) :: rest, r, r1 =>
    ∃ r0, dec zero r = .ret nn none (x, r0) ∧ Ary.Decodes dec zero rest r0 r1

/-- The elements listed in `done`, each with the count its encoder reports,
are written with success one after the other to the sink `w`, and leave the
sink `w1`. -/
def Ary.Encodes {A R W : Type} (E : ElemType A R W) : List (A × ℤ) → W → W → Prop
  | [], w, w1 => w1 = w
  | (v, nn) :: rest, w, w1 =>
    ∃ enc w0, E.encoder v = some enc ∧ enc w = .ret nn none w0 ∧ Ary.Encodes E rest w0 w1

/-- A byte sink with room for `room` more bytes, in the manner of a
fixed-size buffer: the bytes written so far and the room left. -/
structure LimitedWriter where
  buf : List Nat
  room : Nat
  deriving DecidableEq, Repr

/-- `Write` on a `LimitedWriter`: the bytes go through while they fit; a
write that does not fit stores the bytes that do, reports their number and
fails (`io.ErrShortWrite`, here `Error.other 2`). -/
def LimitedWriter.Write (w : LimitedWriter) (bs : List Nat) : Result LimitedWriter :=
  if bs.length ≤ w.room then
    .ret (bs.length : ℤ) none ⟨w.buf ++ bs, w.room - bs.length⟩
  else .ret (w.room : ℤ) (some (.other 2)) ⟨w.buf ++ bs.take w.room, 0⟩

/-- Modelled from the spec: the codecs of the members of `Integers` are
missing; `L.WriteTo` on a `LimitedWriter` hands the encoding to `Write` and
returns its count and error ("sink failures are reported as errors"). -/
def Integers.WriteToLimited (L : Integers) (x : ℤ) (w : LimitedWriter) :
    Result LimitedWriter :=
  w.Write (L.encode x)

/-- The dictionary of the length wire-type `L`, writing to a `LimitedWriter`. -/
def Integers.lenTypeLimited (L : Integers) : LenType Reader LimitedWriter where
  conv := L.conv
  WriteTo := L.WriteToLimited
  ReadFrom := L.ReadFrom

/-- The element dictionary of a member of `Integers`, writing to a
`LimitedWriter`. -/
def Integers.elemTypeLimited (L : Integers) : ElemType ℤ Reader LimitedWriter where
  zero := 0
  maxLen := 2 ^ 48 / (L.bits / 8)
  encoder := fun v => some (L.WriteToLimited v)
  decoder := some L.ReadFrom

/-! ## Goroutines inside `Pull` (player.go, lines 78-106)

`Pull` gives up the lock inside `p.cond.Wait()`, so a call of `Pull` that
waits is more than one atomic step.  `sync.Cond` is Go's: `Wait` adds the
caller to the waiters of the condition, unlocks and suspends in one step, and
returns, after locking again, only when a `Signal` or a `Broadcast` has
released the caller; `Signal` releases one waiter if there is one,
`Broadcast` releases all. -/

/-- A packet queue together with the goroutines that are inside `Pull`: the
goroutines suspended in `cond.Wait()` in the order in which they began to
wait, the goroutines released by `Signal` or `Broadcast` that have yet to
take the lock again, and the calls of `Pull` that have returned, with the
goroutine and the pair returned. -/
structure PullSystem where
  q : PacketQueue
  waiting : List Nat
  woken : List Nat
  returned : List (Nat × Packet × Bool)
  deriving DecidableEq, Repr

/-- Lines 90-98 of `Pull`, run by the goroutine `id` while it holds the
lock: the loop test, then either `cond.Wait()` (the goroutine joins the
waiters) or the return. -/
def PullSystem.attempt (s : PullSystem) (id : Nat) : PullSystem :=
  match s.q.Pull with
  | none => { s with waiting := s.waiting ++ [id] }
  | some (res, q1) => { s with q := q1, returned := s.returned ++ [(id, res)] }

/-- One atomic step of the system: a goroutine calls `Pull`; a released
goroutine takes the lock again inside `Wait` and goes round the loop; some
goroutine runs `Push`; some goroutine runs `Close`. -/
inductive SysStep where
  | pull (id : Nat)
  | resume (id : Nat)
  | push (packet : Packet)
  | close
  deriving DecidableEq, Repr

/-- The effect of one step.  A goroutine that is inside `Pull` cannot call
`Pull` and a goroutine that was not released cannot resume: such steps leave
the system as it is.  `Push` ends with `cond.Signal()`, which releases the
first waiter if there is one; `Close` ends with `cond.Broadcast()`, which
releases every waiter. -/
def PullSystem.step (s : PullSystem) : SysStep → PullSystem
  | .pull id => if id ∈ s.waiting ∨ id ∈ s.woken then s else s.attempt id
  | .resume id =>
    if id ∈ s.woken then PullSystem.attempt { s with woken := s.woken.erase id } id else s
  | .push packet =>
    { s with q := s.q.Push packet, waiting := s.waiting.drop 1,
             woken := s.woken ++ s.waiting.take 1 }
  | .close => { s with q := s.q.Close, waiting := [], woken := s.woken ++ s.waiting }

/-- The system after a schedule: the steps taken one after the other. -/
def PullSystem.run (s : PullSystem) (steps : List SysStep) : PullSystem :=
  steps.foldl PullSystem.step s

/-- The loop of `func (g *GlobalChat) Run(ctx context.Context)` over the
events it receives, in the order in which it receives them. -/
def GlobalChat.run (C : ChatPackets) (g : GlobalChat) (h : Heap) (evs : List Event) :
    GlobalChat × Heap :=
  evs.foldl (fun s ev => s.1.handle C s.2 ev) (g, h)

/-- A second heap for the examples: as `exampleHeap`, but the open queue of
the player at address 1 holds a chat packet already, and the player at
address 3 has a closed queue that still holds a chat packet. -/
def busyHeap : Heap :=
  Function.update
    (Function.update exampleHeap 1
      { exampleHeap 1 with packetQueue := ⟨[⟨15, [0]⟩], false⟩ })
    3 { exampleHeap 3 with packetQueue := ⟨[⟨15, [0]⟩], true⟩ }

/-! # Theorems -/

/-! ## The codecs of the length wire-types -/

theorem beBytes_length (k u : Nat) : (beBytes k u).length = k := by
  induction k with
  | zero => rfl
  | succ k ih => simp [beBytes, ih]

theorem beValue_beBytes (k u acc : Nat) :
    beValue acc (beBytes k u) = acc * 256 ^ k + u % 256 ^ k := by
  induction k generalizing acc with
  | zero => simp [beBytes, beValue, Nat.mod_one]
  | succ k ih =>
    simp only [beBytes, beValue, ih]
    have h : u % 256 ^ (k + 1) = u % 256 ^ k + 256 ^ k * (u / 256 ^ k % 256) := by
      rw [pow_succ, Nat.mod_mul]
    rw [h]; ring

theorem varRead_varBytes (fuel : Nat) : ∀ (u shift acc : Nat) (n : Int) (rest : Reader),
    u < 128 ^ (fuel + 1) →
    varRead (fuel + 1) shift acc n (varBytes (fuel + 1) u ++ rest)
      = (n + ((varBytes (fuel + 1) u).length : ℤ), none, acc + u * 2 ^ shift, rest) := by
  induction fuel with
  | zero =>
    intro u shift acc n rest hu
    have h0 : u / 128 = 0 := by omega
    have h1 : u % 128 = u := by omega
    simp [varBytes, varRead, h0, h1, hu]
    omega
  | succ f ih =>
    intro u shift acc n rest hu
    by_cases h0 : u / 128 = 0
    · have h1 : u % 128 = u := by omega
      have h2 : u < 128 := by omega
      simp [varBytes, varRead, h0, h1, h2]
    · have hq : u / 128 < 128 ^ (f + 1) := by
        rw [Nat.div_lt_iff_lt_mul (by norm_num)]
        calc u < 128 ^ (f + 1 + 1) := hu
          _ = 128 ^ (f + 1) * 128 := by rw [pow_succ]
      have hstep : varBytes (f + 1 + 1) u = (u % 128 + 128) :: varBytes (f + 1) (u / 128) := by
        rw [varBytes]; simp [h0]
      rw [hstep]
      simp only [List.cons_append, varRead]
      have hb : ¬ (u % 128 + 128 < 128) := by omega
      simp only [hb, if_false, Nat.add_sub_cancel]
      have ih2 := ih (u / 128) (shift + 7) (acc + u % 128 * 2 ^ shift) (n + 1) rest hq
      simp only [List.append_eq] at ih2 ⊢
      rw [ih2]
      have hu2 : u % 128 * 2 ^ shift + u / 128 * 2 ^ (shift + 7) = u * 2 ^ shift := by
        have : u = u % 128 + 128 * (u / 128) := (Nat.mod_add_div u 128).symm
        conv_rhs => rw [this]
        rw [pow_add]; ring
      simp only [List.length_cons, Prod.mk.injEq, true_and, and_true]
      refine ⟨by push_cast; ring, by omega⟩

theorem Integers.toUnsigned_lt (L : Integers) (x : ℤ) : L.toUnsigned x < 2 ^ L.bits := by
  unfold Integers.toUnsigned
  have h : (0 : ℤ) < (2 : ℤ) ^ L.bits := by positivity
  have h1 := Int.emod_lt_of_pos x h
  have h2 := Int.emod_nonneg x (ne_of_gt h)
  zify
  rw [Int.toNat_of_nonneg h2]
  exact h1

theorem Integers.conv_of_inRange (L : Integers) (x : ℤ)
    (h1 : L.minValue ≤ x) (h2 : x ≤ L.maxValue) : L.conv x = x := by
  cases L <;>
    simp only [Integers.conv, Integers.ofUnsigned, Integers.toUnsigned, Integers.minValue,
      Integers.maxValue, Integers.signed, Integers.bits] at * <;>
    norm_num at * <;>
    first
      | (split_ifs <;> omega)
      | (rw [max_eq_left (Int.emod_nonneg _ (by norm_num))]; omega)

theorem Integers.ofUnsigned_mod (L : Integers) (u : Nat) :
    L.ofUnsigned (u % 2 ^ L.bits) = L.ofUnsigned u := by
  simp [Integers.ofUnsigned]

theorem Integers.pow_bytes (L : Integers) : 256 ^ (L.bits / 8) = 2 ^ L.bits := by
  cases L <;> norm_num [Integers.bits]

theorem Integers.lt_pow_maxVarLen (L : Integers) (u : Nat) (h : u < 2 ^ L.bits) :
    u < 128 ^ (L.maxVarLen - 1 + 1) := by
  cases L <;> simp [Integers.bits, Integers.maxVarLen] at * <;> omega

theorem Integers.maxVarLen_pos (L : Integers) : L.maxVarLen - 1 + 1 = L.maxVarLen := by
  cases L <;> simp [Integers.bits, Integers.maxVarLen]

theorem Integers.ReadFrom_encode (L : Integers) (x : ℤ)
    (h1 : L.minValue ≤ x) (h2 : x ≤ L.maxValue) (cur : ℤ) (rest : Reader) :
    L.ReadFrom cur (L.encode x ++ rest) = .ret ((L.encode x).length : ℤ) none (x, rest) := by
  have hconv : L.ofUnsigned (L.toUnsigned x) = x := Integers.conv_of_inRange L x h1 h2
  unfold Integers.ReadFrom Integers.encode
  by_cases hv : L.variable = true
  · simp only [hv, if_true]
    have hr := varRead_varBytes (L.maxVarLen - 1) (L.toUnsigned x) 0 0 0 rest
      (L.lt_pow_maxVarLen _ (L.toUnsigned_lt x))
    rw [L.maxVarLen_pos] at hr
    rw [hr]
    simp [hconv]
  · simp only [hv]
    have hlen : ¬ ((beBytes (L.bits / 8) (L.toUnsigned x) ++ rest).length < L.bits / 8) := by
      simp [beBytes_length]
    have htake : (beBytes (L.bits / 8) (L.toUnsigned x) ++ rest).take (L.bits / 8)
        = beBytes (L.bits / 8) (L.toUnsigned x) := by
      rw [List.take_append_of_le_length (by simp [beBytes_length])]
      exact List.take_of_length_le (by simp [beBytes_length])
    have hdrop : (beBytes (L.bits / 8) (L.toUnsigned x) ++ rest).drop (L.bits / 8) = rest := by
      have := List.drop_left (beBytes (L.bits / 8) (L.toUnsigned x)) rest
      rwa [beBytes_length] at this
    simp only [hlen, if_false, htake, hdrop, beValue_beBytes, Nat.zero_mul, Nat.zero_add,
      L.pow_bytes, L.ofUnsigned_mod, hconv, beBytes_length, Bool.false_eq_true]

/-! ## `Ary`: round trip -/

theorem Ary.writeLoop_bytes {A : Type} (E : ElemType A Reader Buffer) (bytes : A → List Nat) :
    ∀ (a : List A) (n : ℤ) (w : Buffer),
    (∀ v ∈ a, ∃ enc, E.encoder v = some enc ∧
      ∀ w, enc w = .ret ((bytes v).length : ℤ) none (w ++ bytes v)) →
    Ary.writeLoop E a n w
      = .ret (n + ((Ary.elemBytes bytes a).length : ℤ)) none (w ++ Ary.elemBytes bytes a) := by
  intro a
  induction a with
  | nil => intro n w _; simp [Ary.writeLoop, Ary.elemBytes]
  | cons v vs ih =>
    intro n w h
    obtain ⟨enc, he, hw⟩ := h v (List.mem_cons_self v vs)
    have ih2 := ih (n + ((bytes v).length : ℤ)) (w ++ bytes v)
      (fun x hx => h x (List.mem_cons_of_mem v hx))
    simp only [Ary.writeLoop, he, hw, Option.isSome_none, Bool.false_eq_true, if_false, ih2,
      Ary.elemBytes, List.length_append, List.append_assoc, Nat.cast_add, add_assoc]

theorem Ary.readLoop_bytes {A : Type} (E : ElemType A Reader Buffer) (bytes : A → List Nat) :
    ∀ (a : List A) (n : ℤ) (rest : Reader),
    (∀ v ∈ a, ∃ dec, E.decoder = some dec ∧
      ∀ rest, dec E.zero (bytes v ++ rest) = .ret ((bytes v).length : ℤ) none (v, rest)) →
    Ary.readLoop E (List.replicate a.length E.zero) n (Ary.elemBytes bytes a ++ rest)
      = .ret (n + ((Ary.elemBytes bytes a).length : ℤ)) none (a, rest) := by
  intro a
  induction a with
  | nil => intro n rest _; simp [Ary.readLoop, Ary.elemBytes]
  | cons v vs ih =>
    intro n rest h
    obtain ⟨dec, hd, hr⟩ := h v (List.mem_cons_self v vs)
    have ih2 := ih (n + ((bytes v).length : ℤ)) rest
      (fun x hx => h x (List.mem_cons_of_mem v hx))
    simp only [List.length_cons, List.replicate_succ, Ary.readLoop, hd, Ary.elemBytes,
      List.append_assoc, hr, Option.isSome_none, Bool.false_eq_true, if_false, ih2,
      List.length_append, Nat.cast_add, add_assoc]

theorem Integers.conv_length (L : Integers) (k : Nat) (h : (k : ℤ) ≤ L.maxValue) :
    L.conv (k : ℤ) = (k : ℤ) := by
  apply Integers.conv_of_inRange L _ _ h
  have : L.minValue ≤ 0 := by cases L <;> simp [Integers.minValue, Integers.signed]
  omega

theorem Integers.minValue_le_zero (L : Integers) : L.minValue ≤ 0 := by
  cases L <;> simp [Integers.minValue, Integers.signed]

/-- Claim C1, amended. For every length wire-type `L` of `Integers` and every
sequence `a` whose element codec round-trips on its elements, provided
`len(a)` is a value of `L` (at most the largest one) and, as for every slice,
a length that `make` accepts: `WriteTo` appends the
wire form to the buffer and reports its length, and `ReadFrom` on that wire
form, whatever follows it and whatever the destination held, returns no
error, yields `a`, reports the same length and leaves what follows unread. -/
theorem Ary.roundTrip_of_length_in_range {A : Type} (L : Integers)
    (E : ElemType A Reader Buffer) (bytes : A → List Nat) (a : List A)
    (hE : E.RoundTripsOn bytes a) (hlen : (a.length : ℤ) ≤ L.maxValue)
    (hfit : a.length ≤ E.maxLen)
    (cur : List A) (w : Buffer) (rest : Reader) :
    Ary.WriteTo L.lenType E a w
        = .ret ((Ary.wire L bytes a).length : ℤ) none (w ++ Ary.wire L bytes a) ∧
      Ary.ReadFrom L.lenType E cur (Ary.wire L bytes a ++ rest)
        = .ret ((Ary.wire L bytes a).length : ℤ) none (a, rest) := by
  have hc : L.conv (a.length : ℤ) = (a.length : ℤ) := L.conv_length _ hlen
  have hmin : L.minValue ≤ (a.length : ℤ) := le_trans L.minValue_le_zero (by omega)
  constructor
  · have hw := Ary.writeLoop_bytes E bytes a ((L.encode (a.length : ℤ)).length : ℤ)
      (w ++ L.encode (a.length : ℤ)) (fun v hv => (hE v hv).1)
    simp only [Ary.WriteTo, Integers.lenType, Integers.WriteTo, hc, Option.isSome_none,
      Bool.false_eq_true, if_false, hw, Ary.wire, List.length_append, Nat.cast_add,
      List.append_assoc]
  · have hr := Ary.readLoop_bytes E bytes a ((L.encode (a.length : ℤ)).length : ℤ) rest
      (fun v hv => (hE v hv).2)
    have hl := L.ReadFrom_encode (a.length : ℤ) hmin hlen 0 (Ary.elemBytes bytes a ++ rest)
    simp only [Ary.ReadFrom, Integers.lenType, Ary.wire, hc, List.append_assoc, hl,
      Option.isSome_none, Bool.false_eq_true, if_false, makeSlice, Int.toNat_ofNat,
      List.length_append, Nat.cast_add]
    have hneg : ¬ ((a.length : ℤ) < 0 ∨ (E.maxLen : ℤ) < (a.length : ℤ)) := by omega
    simp only [hneg, if_false, hr]

theorem Integers.elemType_roundTripsOn (L : Integers) (a : List ℤ)
    (h : ∀ v ∈ a, L.minValue ≤ v ∧ v ≤ L.maxValue) :
    L.elemType.RoundTripsOn L.encode a := by
  intro v hv
  refine ⟨⟨L.WriteTo v, rfl, fun w => rfl⟩, ⟨L.ReadFrom, rfl, fun rest => ?_⟩⟩
  exact L.ReadFrom_encode v (h v hv).1 (h v hv).2 0 rest

/-- The round trip of `[1, 2, 3]` as `Ary[VarInt, Int]`, through
`Ary.roundTrip_of_length_in_range`. -/
theorem Ary.roundTrip_of_length_in_range_witness :
    (([1, 2, 3] : List ℤ).length : ℤ) ≤ Integers.VarInt.maxValue ∧
    Ary.WriteTo Integers.VarInt.lenType Integers.Int.elemType [1, 2, 3] []
        = .ret 13 none [3, 0, 0, 0, 1, 0, 0, 0, 2, 0, 0, 0, 3] ∧
      Ary.ReadFrom Integers.VarInt.lenType Integers.Int.elemType []
          [3, 0, 0, 0, 1, 0, 0, 0, 2, 0, 0, 0, 3]
        = .ret 13 none ([1, 2, 3], []) := by
  have h := Ary.roundTrip_of_length_in_range Integers.VarInt Integers.Int.elemType
    Integers.Int.encode [1, 2, 3]
    (Integers.Int.elemType_roundTripsOn [1, 2, 3] (by decide)) (by decide) (by decide)
    [] [] []
  exact ⟨by decide, h.1, h.2⟩

set_option maxRecDepth 20000 in
/-- Claim C1 as stated fails: 256 elements under the length wire-type
`UnsignedByte`.  The element codec round-trips on them and `WriteTo` writes
257 bytes, the first one `UnsignedByte(256) = 0`; `ReadFrom` on these bytes
returns no error, the empty sequence and the count 1, with 256 bytes unread. -/
theorem Ary.roundTrip_fails_beyond_length_range :
    Integers.UnsignedByte.elemType.RoundTripsOn Integers.UnsignedByte.encode
        (List.replicate 256 7) ∧
      (List.replicate 256 (7 : ℤ)).length ≤ Integers.UnsignedByte.elemType.maxLen ∧
      Ary.WriteTo Integers.UnsignedByte.lenType Integers.UnsignedByte.elemType
          (List.replicate 256 7) []
        = .ret 257 none (0 :: List.replicate 256 7) ∧
      Ary.ReadFrom Integers.UnsignedByte.lenType Integers.UnsignedByte.elemType []
          (0 :: List.replicate 256 7)
        = .ret 1 none ([], List.replicate 256 7) := by
  refine ⟨Integers.UnsignedByte.elemType_roundTripsOn _ ?_, by decide, by decide, by decide⟩
  intro v hv
  rw [List.eq_of_mem_replicate hv]
  decide

/-! ## `Tuple`: the count returned on a failure -/

theorem Tuple.readLoop_append {M R W : Type} (pre post : Tuple M R W) :
    ∀ (n : ℤ) (m : M) (r : R) (n1 : ℤ) (m1 : M) (r1 : R),
    Tuple.readLoop pre n m r = .ret n1 none (m1, r1) →
    Tuple.readLoop (pre ++ post) n m r = Tuple.readLoop post n1 m1 r1 := by
  induction pre with
  | nil =>
    intro n m r n1 m1 r1 h
    simp only [Tuple.readLoop, Result.ret.injEq, Prod.mk.injEq, true_and] at h
    obtain ⟨rfl, rfl, rfl⟩ := h
    rfl
  | cons v t ih =>
    intro n m r n1 m1 r1 h
    simp only [List.cons_append, Tuple.readLoop] at h ⊢
    cases hv : v.ReadFrom m r with
    | panic => simp [hv] at h
    | ret nn err st =>
      obtain ⟨m2, r2⟩ := st
      simp only [hv] at h ⊢
      cases err with
      | some e => simp at h
      | none =>
        simp only [Option.isSome_none, Bool.false_eq_true, if_false] at h ⊢
        exact ih _ _ _ _ _ _ h

theorem Tuple.writeLoop_append {M R W : Type} (pre post : Tuple M R W) :
    ∀ (n : ℤ) (m : M) (w : W) (n1 : ℤ) (w1 : W),
    Tuple.writeLoop pre n m w = .ret n1 none w1 →
    Tuple.writeLoop (pre ++ post) n m w = Tuple.writeLoop post n1 m w1 := by
  induction pre with
  | nil =>
    intro n m w n1 w1 h
    simp only [Tuple.writeLoop, Result.ret.injEq, true_and] at h
    obtain ⟨rfl, rfl⟩ := h
    rfl
  | cons v t ih =>
    intro n m w n1 w1 h
    simp only [List.cons_append, Tuple.writeLoop] at h ⊢
    cases hv : v.WriteTo m w with
    | panic => simp [hv] at h
    | ret nn err w2 =>
      simp only [hv] at h ⊢
      cases err with
      | some e => simp at h
      | none =>
        simp only [Option.isSome_none, Bool.false_eq_true, if_false] at h ⊢
        exact ih _ _ _ _ _ h

/-- When the fields `pre` are read with success, `n1` bytes in all, and the
next field fails after reporting `p` bytes, `Tuple.ReadFrom` returns the
error with the count `n1`: the `p` bytes of the failing field are left out. -/
theorem Tuple.ReadFrom_count_on_failure {M R W : Type} (pre post : Tuple M R W)
    (v : Field M R W) (m m1 m2 : M) (r r1 r2 : R) (n1 p : ℤ) (e : Error)
    (hpre : Tuple.ReadFrom pre m r = .ret n1 none (m1, r1))
    (hv : v.ReadFrom m1 r1 = .ret p (some e) (m2, r2)) :
    Tuple.ReadFrom (pre ++ v :: post) m r = .ret n1 (some e) (m2, r2) := by
  unfold Tuple.ReadFrom at *
  rw [Tuple.readLoop_append pre (v :: post) 0 m r n1 m1 r1 hpre]
  simp [Tuple.readLoop, hv]

/-- When the fields `pre` are written with success, `n1` bytes in all, and
the next field fails after reporting `p` bytes, `Tuple.WriteTo` returns the
error with the count `n1`: the `p` bytes of the failing field are left out. -/
theorem Tuple.WriteTo_count_on_failure {M R W : Type} (pre post : Tuple M R W)
    (v : Field M R W) (m : M) (w w1 w2 : W) (n1 p : ℤ) (e : Error)
    (hpre : Tuple.WriteTo pre m w = .ret n1 none w1)
    (hv : v.WriteTo m w1 = .ret p (some e) w2) :
    Tuple.WriteTo (pre ++ v :: post) m w = .ret n1 (some e) w2 := by
  unfold Tuple.WriteTo at *
  rw [Tuple.writeLoop_append pre (v :: post) 0 m w n1 w1 hpre]
  simp [Tuple.writeLoop, hv]

/-- Claim C2 at its own witness: five `Int` fields read from ten bytes.  The
first two fields take four bytes each, the third consumes the two bytes that
are left and fails; `Tuple.ReadFrom` returns that error with the count 8,
where the claim asks for 8 + 2 = 10. -/
theorem Tuple.ReadFrom_five_fields_truncated :
    (intVar .Int 2).ReadFrom [1, 2, 0, 0, 0] [0, 0]
        = .ret 2 (some .ErrUnexpectedEOF) ([1, 2, 0, 0, 0], []) ∧
      Tuple.ReadFrom [intVar .Int 0, intVar .Int 1, intVar .Int 2, intVar .Int 3, intVar .Int 4]
          [0, 0, 0, 0, 0] [0, 0, 0, 1, 0, 0, 0, 2, 0, 0]
        = .ret 8 (some .ErrUnexpectedEOF) ([1, 2, 0, 0, 0], []) := by
  constructor <;> decide

/-! ## `PacketQueue` -/

theorem PacketQueue.run_open {ops : List QueueOp} :
    ∀ (p : PacketQueue), p.closed = false → QueueOp.close ∉ ops →
    p.pullsReady ops = true →
    ∃ out p1, p.run ops = some (out, p1) ∧ p1.closed = false ∧
      (∀ res ∈ out, res.2 = true) ∧
      out.map Prod.fst ++ p1.queue = p.queue ++ QueueOp.pushed ops := by
  induction ops with
  | nil =>
    intro p hp _ _
    exact ⟨[], p, rfl, hp, by simp, by simp [QueueOp.pushed]⟩
  | cons op ops ih =>
    intro p hp hnc hready
    have hnc2 : QueueOp.close ∉ ops := fun h => hnc (List.mem_cons_of_mem _ h)
    cases op with
    | close => exact absurd (List.mem_cons_self _ _) hnc
    | push packet =>
      have hpush : (p.Push packet).closed = false := by simp [PacketQueue.Push, hp]
      obtain ⟨out, p1, h1, h2, h3, h4⟩ := ih (p.Push packet) hpush hnc2 hready
      refine ⟨out, p1, h1, h2, h3, ?_⟩
      rw [h4]
      simp [PacketQueue.Push, hp, QueueOp.pushed]
    | pull =>
      obtain ⟨queue, closed⟩ := p
      simp only at hp
      subst hp
      cases queue with
      | nil => simp [PacketQueue.pullsReady] at hready
      | cons front rest =>
        simp only [PacketQueue.pullsReady, PacketQueue.Pull] at hready
        obtain ⟨out, p1, h1, h2, h3, h4⟩ := ih ⟨rest, false⟩ rfl hnc2 hready
        refine ⟨(front, true) :: out, p1, ?_, h2, ?_, ?_⟩
        · simp [PacketQueue.run, PacketQueue.Pull, h1]
        · intro res hres
          rcases List.mem_cons.mp hres with h | h
          · rw [h]
          · exact h3 res h
        · simp only [List.map_cons, List.cons_append, h4, QueueOp.pushed]

/-- Claim C3. On an open queue, for every sequence of `Push` and `Pull` calls
in which each `Pull` finds a packet queued: every call returns, each `Pull`
with `ok = true`, the queue stays open, and the packets pulled, in order,
followed by the packets still queued are exactly the packets queued at the
start followed by the packets pushed, in push order.  So the packets pulled
are an initial segment of those, and for every mark `mine` on packets (the
packets of one producer) the marked packets pulled are an initial segment of
the marked packets pushed, in their push order. -/
theorem PacketQueue.fifo (ops : List QueueOp) (p : PacketQueue)
    (hopen : p.closed = false) (hops : QueueOp.close ∉ ops)
    (hready : p.pullsReady ops = true) :
    ∃ out p1, p.run ops = some (out, p1) ∧ p1.closed = false ∧
      (∀ res ∈ out, res.2 = true) ∧
      out.map Prod.fst ++ p1.queue = p.queue ++ QueueOp.pushed ops ∧
      out.map Prod.fst <+: p.queue ++ QueueOp.pushed ops ∧
      ∀ mine : Packet → Bool,
        (out.map Prod.fst).filter mine <+: (p.queue ++ QueueOp.pushed ops).filter mine := by
  obtain ⟨out, p1, h1, h2, h3, h4⟩ := PacketQueue.run_open p hopen hops hready
  have hpre : out.map Prod.fst <+: p.queue ++ QueueOp.pushed ops := ⟨p1.queue, h4⟩
  exact ⟨out, p1, h1, h2, h3, h4, hpre, fun mine => hpre.filter mine⟩

/-- Two producers push the packets 1, 2 and 3 on a new queue while the
consumer pulls twice: `PacketQueue.fifo` applies. -/
theorem PacketQueue.fifo_witness :
    ∃ out p1,
      NewPacketQueue.run [.push ⟨1, []⟩, .push ⟨2, []⟩, .pull, .push ⟨3, []⟩, .pull]
        = some (out, p1) ∧ p1.closed = false ∧
      (∀ res ∈ out, res.2 = true) ∧
      out.map Prod.fst ++ p1.queue = NewPacketQueue.queue ++
        QueueOp.pushed [.push ⟨1, []⟩, .push ⟨2, []⟩, .pull, .push ⟨3, []⟩, .pull] ∧
      out.map Prod.fst <+: NewPacketQueue.queue ++
        QueueOp.pushed [.push ⟨1, []⟩, .push ⟨2, []⟩, .pull, .push ⟨3, []⟩, .pull] ∧
      ∀ mine : Packet → Bool,
        (out.map Prod.fst).filter mine <+: (NewPacketQueue.queue ++
          QueueOp.pushed [.push ⟨1, []⟩, .push ⟨2, []⟩, .pull, .push ⟨3, []⟩, .pull]).filter mine :=
  PacketQueue.fifo [.push ⟨1, []⟩, .push ⟨2, []⟩, .pull, .push ⟨3, []⟩, .pull] NewPacketQueue
    rfl (by decide) (by decide)

/-- Claim C4, amended. On an open queue that holds a packet, `Pull` removes
and returns the front packet with `ok = true`.  On a closed queue, whether
packets are queued or not, `Pull` returns the zero packet with `ok = false`
and leaves the queue as it is.  A `Pull` that returns gives `ok = false`
exactly when the queue is closed. -/
theorem PacketQueue.Pull_result (p : PacketQueue) :
    (p.closed = false → ∀ front rest, p.queue = front :: rest →
      p.Pull = some ((front, true), ⟨rest, false⟩)) ∧
    (p.closed = true → p.Pull = some ((⟨0, []⟩, false), p)) ∧
    (∀ res p1, p.Pull = some (res, p1) → (res.2 = false ↔ p.closed = true)) := by
  obtain ⟨queue, closed⟩ := p
  refine ⟨?_, ?_, ?_⟩
  · intro hc front rest hq
    simp only at hc hq
    subst hc hq
    rfl
  · intro hc
    simp only at hc
    subst hc
    cases queue <;> rfl
  · intro res p1 h
    cases closed <;> cases queue <;> simp [PacketQueue.Pull] at h ⊢ <;>
      (obtain ⟨rfl, _⟩ := h; simp)

/-- The three parts of `PacketQueue.Pull_result` at an open queue holding
the packets 1 and 2 and at a closed queue holding the packet 1. -/
theorem PacketQueue.Pull_result_witness :
    PacketQueue.Pull ⟨[⟨1, []⟩, ⟨2, []⟩], false⟩
        = some ((⟨1, []⟩, true), ⟨[⟨2, []⟩], false⟩) ∧
      PacketQueue.Pull ⟨[⟨1, []⟩], true⟩ = some ((⟨0, []⟩, false), ⟨[⟨1, []⟩], true⟩) ∧
      (((⟨0, []⟩, false) : Packet × Bool).2 = false
        ↔ (⟨[⟨1, []⟩], true⟩ : PacketQueue).closed = true) :=
  ⟨(PacketQueue.Pull_result ⟨[⟨1, []⟩, ⟨2, []⟩], false⟩).1 rfl ⟨1, []⟩ [⟨2, []⟩] rfl,
    (PacketQueue.Pull_result ⟨[⟨1, []⟩], true⟩).2.1 rfl,
    (PacketQueue.Pull_result ⟨[⟨1, []⟩], true⟩).2.2 (⟨0, []⟩, false) ⟨[⟨1, []⟩], true⟩ rfl⟩

/-- Claim C4 as stated fails: a closed queue that still holds the packet 1.
A packet is queued, yet `Pull` returns the zero packet with `ok = false` and
removes nothing. -/
theorem PacketQueue.Pull_closed_nonempty :
    PacketQueue.Pull ⟨[⟨1, []⟩], true⟩ = some ((⟨0, []⟩, false), ⟨[⟨1, []⟩], true⟩) := by
  decide

theorem PacketQueue.run_closed (ops : List QueueOp) :
    ∀ (p : PacketQueue), p.closed = true →
    PacketQueue.run ops p
      = some (List.replicate (ops.count .pull) (⟨0, []⟩, false), p) := by
  induction ops with
  | nil => intro p _; rfl
  | cons op ops ih =>
    intro p hp
    obtain ⟨queue, closed⟩ := p
    simp only at hp
    subst hp
    cases op with
    | push packet =>
      have := ih ⟨queue, true⟩ rfl
      simpa [PacketQueue.run, PacketQueue.Push] using this
    | close =>
      have := ih ⟨queue, true⟩ rfl
      simpa [PacketQueue.run, PacketQueue.Close] using this
    | pull =>
      have := ih ⟨queue, true⟩ rfl
      have hpull : PacketQueue.Pull ⟨queue, true⟩
          = some ((⟨0, []⟩, false), ⟨queue, true⟩) := by cases queue <;> rfl
      simp [PacketQueue.run, hpull, this, List.replicate_succ]

/-- Claim C5, amended. After `Close`, every sequence of further calls
(`Push`, `Pull`, `Close`) runs to its end, each `Pull` returning the zero
packet with `ok = false`, and leaves the queue closed, holding exactly the
packets that were queued at the time of `Close`: no pushed packet is added,
and a queue that was empty at `Close` stays empty. -/
theorem PacketQueue.push_after_Close (p : PacketQueue) (ops : List QueueOp) :
    PacketQueue.run ops p.Close
        = some (List.replicate (ops.count .pull) (⟨0, []⟩, false), p.Close) ∧
      p.Close.closed = true ∧ p.Close.queue = p.queue :=
  ⟨PacketQueue.run_closed ops p.Close rfl, rfl, rfl⟩

/-- Claim C5 as stated fails: a queue that holds the packet 1 when it is
closed.  After `Close` and a `Push` of the packet 2 the queue is not empty: it
still holds the packet 1. -/
theorem PacketQueue.Close_keeps_pending :
    ((PacketQueue.Close ⟨[⟨1, []⟩], false⟩).Push ⟨2, []⟩).queue = [⟨1, []⟩] ∧
      ((PacketQueue.Close ⟨[⟨1, []⟩], false⟩).Push ⟨2, []⟩).queue ≠ [] := by
  decide

/-! ## `Opt` -/

/-- Claim C6. When the presence source resolves to false, `ReadFrom` and
`WriteTo` return `(0, nil)` and leave the source, the sink and the memory
(the wrapped destination with it) as they were.  When it resolves to true,
`ReadFrom` and `WriteTo` are the calls `o.Field.(FieldDecoder).ReadFrom(r)`
and `o.Field.(FieldEncoder).WriteTo(w)` themselves: the same count, the same
error and the same effect. -/
theorem Opt.absent_or_delegates {M R W : Type} (o : Opt M R W) (m : M) (r : R) (w : W) :
    (o.has m = some false →
      o.ReadFrom m r = .ret 0 none (m, r) ∧ o.WriteTo m w = .ret 0 none w) ∧
    (o.has m = some true →
      o.ReadFrom m r = o.Field.ReadFrom m r ∧ o.WriteTo m w = o.Field.WriteTo m w) := by
  constructor
  · intro h
    simp [Opt.ReadFrom, Opt.WriteTo, h]
  · intro h
    simp [Opt.ReadFrom, Opt.WriteTo, h]

/-- The second half of `ExampleOpt_ReadFrom` and its first half, through
`Opt.absent_or_delegates`: with `has` false nothing is read and `data2` is
kept, with `has` true the string is read as by the field alone. -/
theorem Opt.absent_or_delegates_witness :
    (Opt.ReadFrom ⟨FlagData.hasPtr, FlagData.dataField pkString.dec pkString.enc⟩
          (⟨false, [87, 73, 76, 76]⟩ : FlagData Bool (List Nat)) ([] : Reader)
        = .ret 0 none (⟨false, [87, 73, 76, 76]⟩, []) ∧
      Opt.WriteTo (R := Reader) ⟨FlagData.hasPtr, FlagData.dataField pkString.dec pkString.enc⟩
          (⟨false, [87, 73, 76, 76]⟩ : FlagData Bool (List Nat)) ([] : Buffer)
        = .ret 0 none []) ∧
    (Opt.ReadFrom (W := Buffer) ⟨FlagData.hasPtr, FlagData.dataField pkString.dec pkString.enc⟩
          (⟨true, []⟩ : FlagData Bool (List Nat)) ([4, 84, 110, 122, 101] : Reader)
        = .ret 5 none (⟨true, [84, 110, 122, 101]⟩, []) ∧
      Opt.WriteTo (R := Reader) ⟨FlagData.hasPtr, FlagData.dataField pkString.dec pkString.enc⟩
          (⟨true, [84, 110, 122, 101]⟩ : FlagData Bool (List Nat)) ([] : Buffer)
        = .ret 5 none [4, 84, 110, 122, 101]) := by
  refine ⟨(Opt.absent_or_delegates _ _ _ _).1 rfl, ?_⟩
  have h := (Opt.absent_or_delegates
    (⟨FlagData.hasPtr, FlagData.dataField pkString.dec pkString.enc⟩ :
      Opt (FlagData Bool (List Nat)) Reader Buffer)
    ⟨true, []⟩ [4, 84, 110, 122, 101] []).2 rfl
  have h2 := (Opt.absent_or_delegates
    (⟨FlagData.hasPtr, FlagData.dataField pkString.dec pkString.enc⟩ :
      Opt (FlagData Bool (List Nat)) Reader Buffer)
    ⟨true, [84, 110, 122, 101]⟩ [] []).2 rfl
  refine ⟨h.1.trans (by decide), h2.2.trans (by decide)⟩

theorem FlagData.hasPtr_resolve {D : Type} (m : FlagData Bool D) :
    FlagData.hasPtr.resolve m = some m.flag := rfl

theorem FlagData.hasFunc_resolve {F D : Type} (pred : F → Bool) (m : FlagData F D) :
    (FlagData.hasFunc pred).resolve m = some (pred m.flag) := rfl

/-- Claim C7. Take the field list `&flag, Opt{Has: has, Field: &data}` where
`has`, whenever it is resolved, gives `pred` of the value that `flag` holds
at that moment (a reference to a boolean `flag`, or a predicate over `flag`).
When the first field decodes the flag value `f1` from the source, whatever
`flag` held before: if `pred f1` is false the tuple returns the flag's count
with `data` as it was and the source just after the flag's bytes; if
`pred f1` is true `data` is decoded from the bytes that follow the flag, and
the tuple returns the outcome of that decoding (its error, the flag's count
plus, when it succeeds, its count). -/
theorem Opt.presence_resolved_at_use {F D R W : Type}
    (decF : F → R → Result (F × R)) (encF : F → W → Result W)
    (decD : D → R → Result (D × R)) (encD : D → W → Result W)
    (pred : F → Bool) (has : HasValue (FlagData F D))
    (hhas : ∀ m, has.resolve m = some (pred m.flag))
    (m0 : FlagData F D) (r r1 : R) (n1 : ℤ) (f1 : F)
    (hflag : decF m0.flag r = .ret n1 none (f1, r1)) :
    (pred f1 = false →
      Tuple.ReadFrom (FlagData.fields decF encF decD encD has) m0 r
        = .ret n1 none (⟨f1, m0.data⟩, r1)) ∧
    (pred f1 = true →
      Tuple.ReadFrom (FlagData.fields decF encF decD encD has) m0 r
        = match decD m0.data r1 with
          | .panic => .panic
          | .ret n2 err (d, r2) =>
            .ret (if err.isSome then n1 else n1 + n2) err (⟨f1, d⟩, r2)) := by
  have hfirst : (FlagData.flagField (D := D) decF encF).ReadFrom m0 r
      = .ret n1 none (⟨f1, m0.data⟩, r1) := by
    simp [FlagData.flagField, Field.ofVar, Field.ReadFrom, hflag]
  have hres := hhas ⟨f1, m0.data⟩
  have hopt : ∀ m r0, (Opt.mk has (FlagData.dataField (F := F) decD encD)).toField.ReadFrom m r0
      = (Opt.mk has (FlagData.dataField (F := F) decD encD)).ReadFrom m r0 := fun _ _ => rfl
  have hdata : ∀ m r0, (FlagData.dataField (F := F) decD encD).ReadFrom m r0
      = match decD m.data r0 with
        | .panic => .panic
        | .ret n err (x, r2) => .ret n err (⟨m.flag, x⟩, r2) := fun _ _ => rfl
  constructor
  · intro hp
    simp only [hp] at hres
    simp only [Tuple.ReadFrom, Tuple.readLoop, FlagData.fields, hfirst, hopt, Opt.ReadFrom,
      Opt.has, hres, Option.isSome_none, Bool.false_eq_true, if_false, zero_add, add_zero]
  · intro hp
    simp only [hp] at hres
    simp only [Tuple.ReadFrom, Tuple.readLoop, FlagData.fields, hfirst, hopt, Opt.ReadFrom,
      Opt.has, hres, hdata, Option.isSome_none, Bool.false_eq_true, if_false, zero_add]
    cases hd : decD m0.data r1 with
    | panic => rfl
    | ret n2 err st =>
      obtain ⟨d, r2⟩ := st
      cases err <;> simp

/-- `ExampleOpt_ReadFrom_func` and the second packet of `ExampleOpt_ReadFrom`
through `Opt.presence_resolved_at_use`: the flag byte `0x23` is odd, so the
string that follows is decoded into `data`; the boolean `00` is false, so
`data2` is kept and one byte is consumed, although `has` held true before. -/
theorem Opt.presence_resolved_at_use_witness :
    Tuple.ReadFrom
        (FlagData.fields Integers.Byte.ReadFrom Integers.Byte.WriteTo pkString.dec pkString.enc
          (FlagData.hasFunc fun flag => decide (flag % 2 ≠ 0)))
        ⟨0, []⟩ [35, 4, 84, 110, 122, 101]
      = .ret 6 none (⟨35, [84, 110, 122, 101]⟩, []) ∧
    Tuple.ReadFrom
        (FlagData.fields pkBoolean.dec pkBoolean.enc pkString.dec pkString.enc FlagData.hasPtr)
        ⟨true, [87, 73, 76, 76]⟩ [0]
      = .ret 1 none (⟨false, [87, 73, 76, 76]⟩, []) := by
  constructor
  · exact ((Opt.presence_resolved_at_use Integers.Byte.ReadFrom Integers.Byte.WriteTo
      pkString.dec pkString.enc (fun flag => decide (flag % 2 ≠ 0)) _
      (FlagData.hasFunc_resolve _) ⟨0, []⟩ [35, 4, 84, 110, 122, 101] [4, 84, 110, 122, 101]
      1 35 (by decide)).2 (by decide)).trans (by decide)
  · exact (Opt.presence_resolved_at_use pkBoolean.dec pkBoolean.enc
      pkString.dec pkString.enc (fun flag => flag) _
      FlagData.hasPtr_resolve ⟨true, [87, 73, 76, 76]⟩ [0] [] 1 false (by decide)).1 rfl

/-! ## `Ary`: wire layout and decoded length -/

theorem Ary.writeLoop_success {A : Type} (E : ElemType A Reader Buffer) (bytes : A → List Nat) :
    ∀ (a : List A) (n : ℤ) (w : Buffer) (n1 : ℤ) (w1 : Buffer),
    (∀ v ∈ a, ∀ enc w0 nn w2, E.encoder v = some enc → enc w0 = .ret nn none w2 →
      nn = ((bytes v).length : ℤ) ∧ w2 = w0 ++ bytes v) →
    Ary.writeLoop E a n w = .ret n1 none w1 →
    w1 = w ++ Ary.elemBytes bytes a ∧ n1 = n + ((Ary.elemBytes bytes a).length : ℤ) := by
  intro a
  induction a with
  | nil =>
    intro n w n1 w1 _ h
    simp only [Ary.writeLoop, Result.ret.injEq, true_and] at h
    simp [Ary.elemBytes, h.1, h.2]
  | cons v vs ih =>
    intro n w n1 w1 hE h
    simp only [Ary.writeLoop] at h
    cases henc : E.encoder v with
    | none => simp [henc] at h
    | some enc =>
      simp only [henc] at h
      cases hw : enc w with
      | panic => simp [hw] at h
      | ret nn err w2 =>
        simp only [hw] at h
        cases err with
        | some e => simp at h
        | none =>
          simp only [Option.isSome_none, Bool.false_eq_true, if_false] at h
          obtain ⟨hnn, hw2⟩ := hE v (List.mem_cons_self v vs) enc w nn w2 henc hw
          obtain ⟨h1, h2⟩ := ih (n + nn) w2 n1 w1
            (fun x hx => hE x (List.mem_cons_of_mem v hx)) h
          subst hnn hw2
          simp only [Ary.elemBytes, List.length_append, Nat.cast_add, List.append_assoc] at *
          exact ⟨h1, by rw [h2]; ring⟩

/-- Claim C8. For every length wire-type `L` and every sequence `a`, when
a successful write of an element `v` appends its encoding `bytes v` and
reports its length, a successful `Ary.WriteTo` has appended to the sink
exactly the encoding of `L(len(a))` followed by the encodings of the
elements in index order, and returns the number of those bytes.  The length
bytes depend on `len(a)` only. -/
theorem Ary.WriteTo_wire_layout {A : Type} (L : Integers) (E : ElemType A Reader Buffer)
    (bytes : A → List Nat) (a : List A) (w : Buffer)
    (hE : ∀ v ∈ a, ∀ enc w0 nn w2, E.encoder v = some enc → enc w0 = .ret nn none w2 →
      nn = ((bytes v).length : ℤ) ∧ w2 = w0 ++ bytes v)
    (n : ℤ) (w1 : Buffer) (hok : Ary.WriteTo L.lenType E a w = .ret n none w1) :
    w1 = w ++ (L.encode (L.conv (a.length : ℤ)) ++ Ary.elemBytes bytes a) ∧
      n = (((L.encode (L.conv (a.length : ℤ)) ++ Ary.elemBytes bytes a).length : Nat) : ℤ) := by
  simp only [Ary.WriteTo, Integers.lenType, Integers.WriteTo, Option.isSome_none,
    Bool.false_eq_true, if_false] at hok
  obtain ⟨h1, h2⟩ := Ary.writeLoop_success E bytes a _ _ n w1 hE hok
  simp only [List.length_append, Nat.cast_add, List.append_assoc] at *
  exact ⟨h1, h2⟩

theorem Integers.elemType_writes (L : Integers) (a : List ℤ) :
    ∀ v ∈ a, ∀ enc w0 nn w2, L.elemType.encoder v = some enc → enc w0 = .ret nn none w2 →
      nn = ((L.encode v).length : ℤ) ∧ w2 = w0 ++ L.encode v := by
  intro v _ enc w0 nn w2 henc hw
  simp only [Integers.elemType, Option.some.injEq] at henc
  subst henc
  simp only [Integers.WriteTo, Result.ret.injEq, true_and] at hw
  exact ⟨hw.1.symm, hw.2.symm⟩

/-- `TestAry_WriteTo_pointer` through `Ary.WriteTo_wire_layout`: `[1, 2, 3]`
as `Ary[VarInt, Int]` gives the thirteen bytes `03 00 00 00 01 00 00 00 02 00
00 00 03`. -/
theorem Ary.WriteTo_wire_layout_witness :
    Ary.WriteTo Integers.VarInt.lenType Integers.Int.elemType [1, 2, 3] []
        = .ret 13 none [3, 0, 0, 0, 1, 0, 0, 0, 2, 0, 0, 0, 3] ∧
      [3, 0, 0, 0, 1, 0, 0, 0, 2, 0, 0, 0, 3]
        = Integers.VarInt.encode (Integers.VarInt.conv 3)
          ++ Ary.elemBytes Integers.Int.encode [1, 2, 3] := by
  have hok : Ary.WriteTo Integers.VarInt.lenType Integers.Int.elemType [1, 2, 3] []
      = .ret 13 none [3, 0, 0, 0, 1, 0, 0, 0, 2, 0, 0, 0, 3] := by decide
  have h := Ary.WriteTo_wire_layout Integers.VarInt Integers.Int.elemType Integers.Int.encode
    [1, 2, 3] [] (Integers.Int.elemType_writes [1, 2, 3]) 13 _ hok
  exact ⟨hok, by simpa using h.1⟩

theorem Ary.readLoop_length {A R W : Type} (E : ElemType A R W) :
    ∀ (slots : List A) (n : ℤ) (r : R) (n1 : ℤ) (err : Option Error) (a1 : List A) (r1 : R),
    Ary.readLoop E slots n r = .ret n1 err (a1, r1) → a1.length = slots.length := by
  intro slots
  induction slots with
  | nil =>
    intro n r n1 err a1 r1 h
    simp only [Ary.readLoop, Result.ret.injEq, Prod.mk.injEq] at h
    rw [← h.2.2.1]
  | cons x xs ih =>
    intro n r n1 err a1 r1 h
    simp only [Ary.readLoop] at h
    cases hdec : E.decoder with
    | none => simp [hdec] at h
    | some dec =>
      simp only [hdec] at h
      cases hx : dec x r with
      | panic => simp [hx] at h
      | ret nn e st =>
        obtain ⟨x1, r2⟩ := st
        simp only [hx] at h
        cases e with
        | some e1 =>
          simp only [Option.isSome_some, if_true, Result.ret.injEq, Prod.mk.injEq] at h
          rw [← h.2.2.1]
          simp
        | none =>
          simp only [Option.isSome_none, Bool.false_eq_true, if_false] at h
          cases hrec : Ary.readLoop E xs (n + nn) r2 with
          | panic => simp [hrec] at h
          | ret m e2 st2 =>
            obtain ⟨ys, r3⟩ := st2
            simp only [hrec, Result.ret.injEq, Prod.mk.injEq] at h
            rw [← h.2.2.1]
            simp [ih _ _ _ _ _ _ hrec]

theorem Ary.readLoop_returns {A R W : Type} (E : ElemType A R W)
    (dec : A → R → Result (A × R)) (hdec : E.decoder = some dec)
    (hret : ∀ x r, dec x r ≠ .panic) :
    ∀ (slots : List A) (n : ℤ) (r : R),
    ∃ n1 err a1 r1, Ary.readLoop E slots n r = .ret n1 err (a1, r1) := by
  intro slots
  induction slots with
  | nil => intro n r; exact ⟨n, none, [], r, rfl⟩
  | cons x xs ih =>
    intro n r
    simp only [Ary.readLoop, hdec]
    cases hx : dec x r with
    | panic => exact absurd hx (hret x r)
    | ret nn e st =>
      obtain ⟨x1, r2⟩ := st
      cases e with
      | some e1 => exact ⟨_, _, _, _, rfl⟩
      | none =>
        obtain ⟨n1, err, a1, r1, h⟩ := ih (n + nn) r2
        simp only [Option.isSome_none, Bool.false_eq_true, if_false, h]
        exact ⟨_, _, _, _, rfl⟩

/-- Claim C9, amended. Let the length at the head of the input decode,
without error, to the value `v` of the length wire-type.  If `v` is negative
or above the largest length that `make` accepts, `Ary.ReadFrom` panics (in
`make`).  Otherwise: whenever `Ary.ReadFrom` returns, with or without an
element error, the sequence it leaves has exactly `v` elements; and it does
return when `v` is zero or the element decoder never panics. -/
theorem Ary.ReadFrom_decoded_length {A R W : Type} (L : LenType R W) (E : ElemType A R W)
    (cur : List A) (r r1 : R) (n v : ℤ)
    (hlen : L.ReadFrom 0 r = .ret n none (v, r1)) :
    (v < 0 ∨ (E.maxLen : ℤ) < v → Ary.ReadFrom L E cur r = .panic) ∧
    (0 ≤ v → v ≤ (E.maxLen : ℤ) →
      (∀ n1 err a1 r2, Ary.ReadFrom L E cur r = .ret n1 err (a1, r2) → (a1.length : ℤ) = v) ∧
      ((v = 0 ∨ ∃ dec, E.decoder = some dec ∧ ∀ x r0, dec x r0 ≠ .panic) →
        ∃ n1 err a1 r2, Ary.ReadFrom L E cur r = .ret n1 err (a1, r2) ∧ (a1.length : ℤ) = v)) := by
  constructor
  · intro hv
    simp [Ary.ReadFrom, hlen, makeSlice, hv]
  · intro hv hmax
    have hnot : ¬ (v < 0 ∨ (E.maxLen : ℤ) < v) := by omega
    have hred : Ary.ReadFrom L E cur r = Ary.readLoop E (List.replicate v.toNat E.zero) n r1 := by
      simp [Ary.ReadFrom, hlen, makeSlice, hnot]
    have hlength : ∀ n1 err a1 r2, Ary.ReadFrom L E cur r = .ret n1 err (a1, r2) →
        (a1.length : ℤ) = v := by
      intro n1 err a1 r2 h
      rw [hred] at h
      rw [Ary.readLoop_length E _ _ _ _ _ _ _ h, List.length_replicate]
      exact Int.toNat_of_nonneg hv
    refine ⟨hlength, ?_⟩
    intro hdec
    have hex : ∃ n1 err a1 r2, Ary.ReadFrom L E cur r = .ret n1 err (a1, r2) := by
      rcases hdec with h0 | ⟨dec, hd, hret⟩
      · subst h0
        exact ⟨n, none, [], r1, by rw [hred]; rfl⟩
      · rw [hred]
        exact Ary.readLoop_returns E dec hd hret _ _ _
    obtain ⟨n1, err, a1, r2, h⟩ := hex
    exact ⟨n1, err, a1, r2, h, hlength _ _ _ _ h⟩

theorem Integers.ReadFrom_returns (L : Integers) (x : ℤ) (r : Reader) :
    L.ReadFrom x r ≠ .panic := by
  unfold Integers.ReadFrom
  split
  · split <;> simp
  · split <;> simp

/-- `Ary.ReadFrom_decoded_length` at three inputs: the `Byte` length `ff`
(the value -1); `TestAry_ReadFrom`, whose `Int` length `00 00 00 02` leaves
two strings; and the same length in front of one `Int` element cut short,
which still leaves two elements. -/
theorem Ary.ReadFrom_decoded_length_witness :
    Ary.ReadFrom Integers.Byte.lenType Integers.Int.elemType [] [255, 0, 0, 0, 1] = .panic ∧
    ((([[84, 110, 122, 101], []] : List (List Nat)).length : ℤ) = 2) ∧
    (∃ n1 err a1 r2,
      Ary.ReadFrom Integers.Int.lenType Integers.Int.elemType [] [0, 0, 0, 2, 0, 0, 0, 7, 0]
        = .ret n1 err (a1, r2) ∧ (a1.length : ℤ) = 2) := by
  refine ⟨?_, ?_, ?_⟩
  · exact (Ary.ReadFrom_decoded_length Integers.Byte.lenType Integers.Int.elemType []
      [255, 0, 0, 0, 1] [0, 0, 0, 1] 1 (-1) (by decide)).1 (Or.inl (by decide))
  · exact ((Ary.ReadFrom_decoded_length Integers.Int.lenType pkString []
      [0, 0, 0, 2, 4, 84, 110, 122, 101, 0] [4, 84, 110, 122, 101, 0] 4 2 (by decide)).2
      (by decide) (by decide)).1 10 none [[84, 110, 122, 101], []] [] (by decide)
  · exact ((Ary.ReadFrom_decoded_length Integers.Int.lenType Integers.Int.elemType []
      [0, 0, 0, 2, 0, 0, 0, 7, 0] [0, 0, 0, 7, 0] 4 2 (by decide)).2 (by decide)
      (by decide)).2
      (Or.inr ⟨Integers.Int.ReadFrom, rfl, Integers.Int.ReadFrom_returns⟩)

/-- Claim C9 as stated fails: the length wire-type `Byte` and an input that
starts with `ff`.  The length decodes, without error, to the value -1, and
`Ary.ReadFrom` does not return: it panics. -/
theorem Ary.ReadFrom_negative_length :
    Integers.Byte.lenType.ReadFrom 0 [255, 0, 0, 0, 1] = .ret 1 none (-1, [0, 0, 0, 1]) ∧
      Ary.ReadFrom Integers.Byte.lenType Integers.Int.elemType [] [255, 0, 0, 0, 1]
        = .panic := by
  constructor <;> decide

/-! ## `GlobalChat` -/

theorem Heap.WritePacket_same (h : Heap) (a : Nat) (packet : Packet) :
    Heap.WritePacket h a packet a = (h a).WritePacket packet := by
  simp [Heap.WritePacket]

theorem Heap.WritePacket_other (h : Heap) (a b : Nat) (packet : Packet) (hab : b ≠ a) :
    Heap.WritePacket h a packet b = h b := by
  simp [Heap.WritePacket, Function.update, hab]

theorem GlobalChat.broadcast_entries (packet : Packet) :
    ∀ (l : List (Sigma fun _ : Nat => Nat)) (h : Heap), (l.map fun e => e.2).Nodup →
    (∀ e ∈ l, l.foldl (fun h1 e => Heap.WritePacket h1 e.2 packet) h e.2
        = (h e.2).WritePacket packet) ∧
    (∀ a, (∀ e ∈ l, e.2 ≠ a) →
      l.foldl (fun h1 e => Heap.WritePacket h1 e.2 packet) h a = h a) := by
  intro l
  induction l with
  | nil => intro h _; simp
  | cons e l ih =>
    intro h hnd
    simp only [List.map_cons, List.nodup_cons, List.mem_map, not_exists, not_and] at hnd
    obtain ⟨hne, hnd2⟩ := hnd
    obtain ⟨ih1, ih2⟩ := ih (Heap.WritePacket h e.2 packet) hnd2
    have hfresh : ∀ e1 ∈ l, e1.2 ≠ e.2 := fun e1 he1 => hne e1 he1
    constructor
    · intro e1 he1
      simp only [List.foldl_cons]
      rcases List.mem_cons.mp he1 with rfl | hmem
      · rw [ih2 e1.2 hfresh, Heap.WritePacket_same]
      · rw [ih1 e1 hmem, Heap.WritePacket_other _ _ _ _ (hfresh e1 hmem)]
    · intro a ha
      simp only [List.foldl_cons]
      rw [ih2 a (fun e1 he1 => ha e1 (List.mem_cons_of_mem _ he1)),
        Heap.WritePacket_other _ _ _ _ (Ne.symm (ha e (List.mem_cons_self _ _)))]

theorem GlobalChat.keyed_nodup (g : GlobalChat) (h : Heap) (hk : g.keyed h) :
    (g.players.entries.map fun e => e.2).Nodup := by
  have hkeys : (g.players.entries.map fun e => e.1).Nodup := g.players.nodupKeys
  have hinj : ∀ e1 ∈ g.players.entries, ∀ e2 ∈ g.players.entries,
      e1.2 = e2.2 → e1.1 = e2.1 := by
    intro e1 h1 e2 h2 heq
    rw [← hk e1 h1, ← hk e2 h2, heq]
  generalize g.players.entries = l at hkeys hinj
  induction l with
  | nil => simp
  | cons e l ih =>
    simp only [List.map_cons, List.nodup_cons, List.mem_map, not_exists, not_and] at hkeys ⊢
    refine ⟨?_, ih hkeys.2 (fun e1 h1 e2 h2 => hinj e1 (List.mem_cons_of_mem _ h1) e2
      (List.mem_cons_of_mem _ h2))⟩
    intro e1 he1 heq
    exact hkeys.1 e1 he1 (hinj e1 (List.mem_cons_of_mem _ he1) e (List.mem_cons_self _ _) heq)

theorem GlobalChat.broadcast_UUID (packet : Packet) :
    ∀ (l : List (Sigma fun _ : Nat => Nat)) (h : Heap) (a : Nat),
    (l.foldl (fun h1 e => Heap.WritePacket h1 e.2 packet) h a).UUID = (h a).UUID := by
  intro l
  induction l with
  | nil => intro h a; rfl
  | cons e l ih =>
    intro h a
    simp only [List.foldl_cons]
    rw [ih]
    by_cases hae : a = e.2
    · subst hae
      rw [Heap.WritePacket_same]
      rfl
    · rw [Heap.WritePacket_other _ _ _ _ hae]

/-- The registries that `Run` builds are keyed: the new registry is, and
every event keeps it so. -/
theorem GlobalChat.keyed_handle (C : ChatPackets) (g : GlobalChat) (h : Heap) (ev : Event)
    (hk : g.keyed h) :
    NewGlobalChat.keyed h ∧ (g.handle C h ev).1.keyed (g.handle C h ev).2 := by
  refine ⟨fun e he => by simp [NewGlobalChat] at he, ?_⟩
  cases ev with
  | msg p text =>
    intro e he
    simp only [GlobalChat.handle, GlobalChat.broadcast] at he ⊢
    rw [GlobalChat.broadcast_UUID]
    exact hk e he
  | join p =>
    intro e he
    simp only [GlobalChat.handle, GlobalChat.broadcast, AList.insert_entries,
      List.mem_cons] at he ⊢
    rw [GlobalChat.broadcast_UUID]
    rcases he with rfl | he
    · simp only [GlobalChat.broadcast_UUID]
    · exact hk e (List.mem_of_mem_eraseP he)
  | quit p =>
    intro e he
    simp only [GlobalChat.handle, GlobalChat.broadcast] at he ⊢
    rw [GlobalChat.broadcast_UUID]
    exact hk e (List.mem_of_mem_eraseP he)

/-! ## `PacketQueue`: `Close` -/

/-- Claim C12. `Close` leaves the queue closed; a second `Close` leaves the
state that the first one left; and on a closed queue every sequence of
`Push`, `Pull` and `Close` calls runs to its end and leaves the queue as it
was, closed. -/
theorem PacketQueue.Close_idempotent_terminal (p : PacketQueue) (ops : List QueueOp) :
    p.Close.closed = true ∧ p.Close.Close = p.Close ∧
    (p.closed = true →
      ∃ out p1, PacketQueue.run ops p = some (out, p1) ∧ p1 = p ∧ p1.closed = true) := by
  refine ⟨rfl, rfl, fun hc => ?_⟩
  exact ⟨_, p, PacketQueue.run_closed ops p hc, rfl, hc⟩

/-- A closed queue that holds the packet 1, under a `Push`, a `Pull`, a
`Close` and another `Pull`: `PacketQueue.Close_idempotent_terminal` applies. -/
theorem PacketQueue.Close_idempotent_terminal_witness :
    ∃ out p1,
      PacketQueue.run [.push ⟨2, []⟩, .pull, .close, .pull] ⟨[⟨1, []⟩], true⟩ = some (out, p1) ∧
        p1 = ⟨[⟨1, []⟩], true⟩ ∧ p1.closed = true :=
  (PacketQueue.Close_idempotent_terminal ⟨[⟨1, []⟩], true⟩
    [.push ⟨2, []⟩, .pull, .close, .pull]).2.2 rfl

/-! ## `Opt`: the shapes of `Has` -/

theorem HasValue.resolve_isSome_iff {M : Type} (m : M) (v : HasValue M) :
    (v.resolve m).isSome = true ↔ HasValue.Accepted m v := by
  induction v with
  | bool b => simp [HasValue.resolve, HasValue.Accepted.bool]
  | ptr elem ih =>
    simp only [HasValue.resolve]
    rw [ih m]
    constructor
    · intro h; exact HasValue.Accepted.ptr elem h
    · intro h; cases h; assumption
  | func f =>
    cases f with
    | none =>
      simp only [HasValue.resolve, Option.isSome_none, Bool.false_eq_true, false_iff]
      intro h; cases h
    | some f => simp [HasValue.resolve, HasValue.Accepted.func]
  | other =>
    simp only [HasValue.resolve, Option.isSome_none, Bool.false_eq_true, false_iff]
    intro h; cases h

/-- Claim C13, amended. `has` returns a value exactly on these shapes of
`Has`: a boolean (yielding it), a `func() bool` (yielding its result), and a
reference to a value of an accepted shape (yielding what that value yields,
so a reference to a boolean yields the boolean it points to, and so does a
reference to such a reference).  On every other shape it panics: a nil
reference, a value of another kind such as an integer, a function that is
not a `func() bool`. -/
theorem Opt.has_shapes {M R W : Type} (fld : GoMc.Field M R W) (m : M) :
    (∀ v : HasValue M, ((Opt.mk v fld).has m).isSome = true ↔ HasValue.Accepted m v) ∧
    (∀ get : M → Bool, (Opt.mk (.ptr fun m1 => .bool (get m1)) fld).has m = some (get m)) ∧
    (∀ f : M → Bool, (Opt.mk (.func (some f)) fld).has m = some (f m)) ∧
    (∀ b : Bool, (Opt.mk (.bool b) fld).has m = some b) ∧
    (∀ elem : M → HasValue M,
      (Opt.mk (.ptr elem) fld).has m = (Opt.mk (elem m) fld).has m) ∧
    (Opt.mk (.ptr fun _ => .other) fld).has m = none ∧
    (Opt.mk .other fld).has m = none ∧
    (Opt.mk (.func none) fld).has m = none :=
  ⟨fun v => HasValue.resolve_isSome_iff m v, fun _ => rfl, fun _ => rfl, fun _ => rfl,
    fun _ => rfl, rfl, rfl, rfl⟩

/-- Claim C13 as stated fails: `Has: true`, a plain boolean that is not a
reference, and `Has: &ptr` with `ptr = &has`, a reference to a reference.
On both `has` returns a value and does not panic. -/
theorem Opt.has_plain_bool_and_double_reference :
    (Opt.mk (R := Reader) (W := Buffer) (.bool true)
        (FlagData.dataField pkString.dec pkString.enc)).has
        (⟨false, []⟩ : FlagData Bool (List Nat)) = some true ∧
      (Opt.mk (R := Reader) (W := Buffer) (.ptr fun _ => FlagData.hasPtr)
        (FlagData.dataField pkString.dec pkString.enc)).has
        (⟨true, []⟩ : FlagData Bool (List Nat)) = some true := by
  constructor <;> rfl

/-! ## `Tuple` against the fields called one by one -/

theorem Tuple.readLoop_of_inlineRead {M R W : Type} (t : Tuple M R W) :
    ∀ (n : ℤ) (m : M) (r : R) (ns : List ℤ) (st : M × R),
    Tuple.inlineRead t m r = some (ns, st) →
    Tuple.readLoop t n m r = .ret (n + ns.sum) none st := by
  induction t with
  | nil =>
    intro n m r ns st h
    simp only [Tuple.inlineRead, Option.some.injEq, Prod.mk.injEq] at h
    obtain ⟨rfl, rfl⟩ := h
    simp [Tuple.readLoop]
  | cons v t ih =>
    intro n m r ns st h
    simp only [Tuple.inlineRead] at h
    cases hv : v.ReadFrom m r with
    | panic => simp [hv] at h
    | ret nn err st1 =>
      obtain ⟨m1, r1⟩ := st1
      cases err with
      | some e => simp [hv] at h
      | none =>
        simp only [hv] at h
        cases hrec : Tuple.inlineRead t m1 r1 with
        | none => simp [hrec] at h
        | some res =>
          obtain ⟨ns1, st2⟩ := res
          simp only [hrec, Option.some.injEq, Prod.mk.injEq] at h
          obtain ⟨rfl, rfl⟩ := h
          simp only [Tuple.readLoop, hv, Option.isSome_none, Bool.false_eq_true, if_false,
            ih (n + nn) m1 r1 ns1 st2 hrec, List.sum_cons, add_assoc]

theorem Tuple.inlineRead_of_readLoop {M R W : Type} (t : Tuple M R W) :
    ∀ (n : ℤ) (m : M) (r : R) (n1 : ℤ) (st : M × R),
    Tuple.readLoop t n m r = .ret n1 none st →
    ∃ ns, Tuple.inlineRead t m r = some (ns, st) ∧ n1 = n + ns.sum := by
  induction t with
  | nil =>
    intro n m r n1 st h
    simp only [Tuple.readLoop, Result.ret.injEq, true_and] at h
    obtain ⟨rfl, rfl⟩ := h
    exact ⟨[], rfl, by simp⟩
  | cons v t ih =>
    intro n m r n1 st h
    simp only [Tuple.readLoop] at h
    cases hv : v.ReadFrom m r with
    | panic => simp [hv] at h
    | ret nn err st1 =>
      obtain ⟨m1, r1⟩ := st1
      simp only [hv] at h
      cases err with
      | some e => simp at h
      | none =>
        simp only [Option.isSome_none, Bool.false_eq_true, if_false] at h
        obtain ⟨ns, h1, h2⟩ := ih (n + nn) m1 r1 n1 st h
        refine ⟨nn :: ns, ?_, ?_⟩
        · simp [Tuple.inlineRead, hv, h1]
        · rw [h2, List.sum_cons]; ring

theorem Tuple.writeLoop_of_inlineWrite {M R W : Type} (t : Tuple M R W) :
    ∀ (n : ℤ) (m : M) (w : W) (ns : List ℤ) (w1 : W),
    Tuple.inlineWrite t m w = some (ns, w1) →
    Tuple.writeLoop t n m w = .ret (n + ns.sum) none w1 := by
  induction t with
  | nil =>
    intro n m w ns w1 h
    simp only [Tuple.inlineWrite, Option.some.injEq, Prod.mk.injEq] at h
    obtain ⟨rfl, rfl⟩ := h
    simp [Tuple.writeLoop]
  | cons v t ih =>
    intro n m w ns w1 h
    simp only [Tuple.inlineWrite] at h
    cases hv : v.WriteTo m w with
    | panic => simp [hv] at h
    | ret nn err w2 =>
      cases err with
      | some e => simp [hv] at h
      | none =>
        simp only [hv] at h
        cases hrec : Tuple.inlineWrite t m w2 with
        | none => simp [hrec] at h
        | some res =>
          obtain ⟨ns1, w3⟩ := res
          simp only [hrec, Option.some.injEq, Prod.mk.injEq] at h
          obtain ⟨rfl, rfl⟩ := h
          simp only [Tuple.writeLoop, hv, Option.isSome_none, Bool.false_eq_true, if_false,
            ih (n + nn) m w2 ns1 w3 hrec, List.sum_cons, add_assoc]

theorem Tuple.inlineWrite_of_writeLoop {M R W : Type} (t : Tuple M R W) :
    ∀ (n : ℤ) (m : M) (w : W) (n1 : ℤ) (w1 : W),
    Tuple.writeLoop t n m w = .ret n1 none w1 →
    ∃ ns, Tuple.inlineWrite t m w = some (ns, w1) ∧ n1 = n + ns.sum := by
  induction t with
  | nil =>
    intro n m w n1 w1 h
    simp only [Tuple.writeLoop, Result.ret.injEq, true_and] at h
    obtain ⟨rfl, rfl⟩ := h
    exact ⟨[], rfl, by simp⟩
  | cons v t ih =>
    intro n m w n1 w1 h
    simp only [Tuple.writeLoop] at h
    cases hv : v.WriteTo m w with
    | panic => simp [hv] at h
    | ret nn err w2 =>
      simp only [hv] at h
      cases err with
      | some e => simp at h
      | none =>
        simp only [Option.isSome_none, Bool.false_eq_true, if_false] at h
        obtain ⟨ns, h1, h2⟩ := ih (n + nn) m w2 n1 w1 h
        refine ⟨nn :: ns, ?_, ?_⟩
        · simp [Tuple.inlineWrite, hv, h1]
        · rw [h2, List.sum_cons]; ring

theorem Tuple.inlineWrite_bytes {M R : Type} (m : M) :
    ∀ (t : Tuple M R Buffer) (encs : List (List Nat)) (w : Buffer),
    List.Forall₂ (fun v e => ∀ w0, v.WriteTo m w0 = .ret ((e.length : Nat) : ℤ) none (w0 ++ e))
      t encs →
    Tuple.inlineWrite t m w
      = some (encs.map fun e => ((e.length : Nat) : ℤ), w ++ encs.flatten) := by
  intro t encs w h
  induction h generalizing w with
  | nil => simp [Tuple.inlineWrite]
  | cons hv _ ih =>
    simp only [Tuple.inlineWrite, hv, ih, List.map_cons, List.flatten_cons, List.append_assoc]

/-- Claim C14. When the fields of a `Tuple`, called one after the other in
declaration order on the same source (sink), all succeed, `Tuple.ReadFrom`
(`Tuple.WriteTo`) returns no error, the sum of the counts of those calls, and
the memory and source (the sink) that the last call leaves; and a
`Tuple.ReadFrom` (`Tuple.WriteTo`) that returns no error is such a run of
calls.  On a byte buffer, when each field appends its encoding and reports
its length, the buffer gains the concatenation of the encodings in order and
the count is its length.  The empty `Tuple` returns `(0, nil)` and leaves
source and sink as they were. -/
theorem Tuple.equals_inlining {M R : Type} (t : Tuple M R Buffer) (m : M) (r : R)
    (w : Buffer) :
    (∀ ns st, Tuple.inlineRead t m r = some (ns, st) →
      Tuple.ReadFrom t m r = .ret ns.sum none st) ∧
    (∀ n st, Tuple.ReadFrom t m r = .ret n none st →
      ∃ ns, Tuple.inlineRead t m r = some (ns, st) ∧ n = ns.sum) ∧
    (∀ ns w1, Tuple.inlineWrite t m w = some (ns, w1) →
      Tuple.WriteTo t m w = .ret ns.sum none w1) ∧
    (∀ n w1, Tuple.WriteTo t m w = .ret n none w1 →
      ∃ ns, Tuple.inlineWrite t m w = some (ns, w1) ∧ n = ns.sum) ∧
    (∀ encs : List (List Nat),
      List.Forall₂
        (fun v e => ∀ w0, v.WriteTo m w0 = .ret ((e.length : Nat) : ℤ) none (w0 ++ e)) t encs →
      Tuple.WriteTo t m w = .ret ((encs.flatten.length : Nat) : ℤ) none (w ++ encs.flatten)) ∧
    Tuple.ReadFrom ([] : Tuple M R Buffer) m r = .ret 0 none (m, r) ∧
    Tuple.WriteTo ([] : Tuple M R Buffer) m w = .ret 0 none w := by
  refine ⟨?_, ?_, ?_, ?_, ?_, rfl, rfl⟩
  · intro ns st h
    have := Tuple.readLoop_of_inlineRead t 0 m r ns st h
    simpa [Tuple.ReadFrom] using this
  · intro n st h
    obtain ⟨ns, h1, h2⟩ := Tuple.inlineRead_of_readLoop t 0 m r n st h
    exact ⟨ns, h1, by simpa using h2⟩
  · intro ns w1 h
    have := Tuple.writeLoop_of_inlineWrite t 0 m w ns w1 h
    simpa [Tuple.WriteTo] using this
  · intro n w1 h
    obtain ⟨ns, h1, h2⟩ := Tuple.inlineWrite_of_writeLoop t 0 m w n w1 h
    exact ⟨ns, h1, by simpa using h2⟩
  · intro encs h
    have h1 := Tuple.inlineWrite_bytes m t encs w h
    have h2 := Tuple.writeLoop_of_inlineWrite t 0 m w _ _ h1
    have hsum : (encs.map fun e => ((e.length : Nat) : ℤ)).sum
        = ((encs.flatten.length : Nat) : ℤ) := by
      clear h h1 h2
      induction encs with
      | nil => simp
      | cons e es ih => simp [ih]
    rw [Tuple.WriteTo, h2, zero_add, hsum]

/-- The three `Int` variables 1, 2 and 3 written as one `Tuple`, and two
`Int` variables read back as one, through `Tuple.equals_inlining`. -/
theorem Tuple.equals_inlining_witness :
    Tuple.ReadFrom [intVar .Int 0, intVar .Int 1] [0, 0] [0, 0, 0, 1, 0, 0, 0, 2, 9]
        = .ret 8 none ([1, 2], [9]) ∧
      Tuple.WriteTo [intVar .Int 0, intVar .Int 1, intVar .Int 2] [1, 2, 3] []
        = .ret 12 none [0, 0, 0, 1, 0, 0, 0, 2, 0, 0, 0, 3] ∧
      (∃ ns, Tuple.inlineRead [intVar .Int 0, intVar .Int 1] [0, 0]
          [0, 0, 0, 1, 0, 0, 0, 2, 9] = some (ns, ([1, 2], [9])) ∧ (8 : ℤ) = ns.sum) ∧
      (∃ ns, Tuple.inlineWrite [intVar .Int 0, intVar .Int 1, intVar .Int 2] [1, 2, 3] []
          = some (ns, [0, 0, 0, 1, 0, 0, 0, 2, 0, 0, 0, 3]) ∧ (12 : ℤ) = ns.sum) ∧
      Tuple.WriteTo [intVar .Int 0, intVar .Int 1, intVar .Int 2] [1, 2, 3] [7]
        = .ret 12 none [7, 0, 0, 0, 1, 0, 0, 0, 2, 0, 0, 0, 3] := by
  have hr := Tuple.equals_inlining [intVar .Int 0, intVar .Int 1] [0, 0]
    [0, 0, 0, 1, 0, 0, 0, 2, 9] []
  have hw := Tuple.equals_inlining [intVar .Int 0, intVar .Int 1, intVar .Int 2] [1, 2, 3]
    ([] : Reader) []
  have hb := (Tuple.equals_inlining [intVar .Int 0, intVar .Int 1, intVar .Int 2] [1, 2, 3]
    ([] : Reader) [7]).2.2.2.2.1 [[0, 0, 0, 1], [0, 0, 0, 2], [0, 0, 0, 3]]
    (List.Forall₂.cons (fun _ => rfl) (List.Forall₂.cons (fun _ => rfl)
      (List.Forall₂.cons (fun _ => rfl) List.Forall₂.nil)))
  have h1 := hr.1 [4, 4] ([1, 2], [9]) (by decide)
  have h2 := hw.2.2.1 [4, 4, 4] [0, 0, 0, 1, 0, 0, 0, 2, 0, 0, 0, 3] (by decide)
  exact ⟨h1, h2, hr.2.1 8 _ h1, hw.2.2.2.1 12 _ h2, hb⟩

/-! ## `Player`: the error cell -/

theorem Player.PutErr_occupied (p : Player) (hcap : p.errChan.cap = 1)
    (e0 : Option Error) (hbuf : p.errChan.buf = [e0]) (es : List (Option Error)) :
    es.foldl Player.PutErr p = p := by
  induction es with
  | nil => rfl
  | cons e es ih =>
    have h1 : p.PutErr e = p := by simp [Player.PutErr, hcap, hbuf]
    simp only [List.foldl_cons, h1, ih]

/-- Claim C16. Let the error channel of a player have room for one error
(a single slot).  When the slot is empty `PutErr(e)` stores `e` and changes
nothing else; when it is occupied `PutErr` leaves the player as it is.
`GetErr` on an occupied slot returns the stored error and empties the slot;
on an empty slot it returns nil and changes nothing.  So after
`PutErr(e1), ..., PutErr(ek)` on an empty slot the next `GetErr` returns `e1`
and the one after returns nil. -/
theorem Player.errChan_single_slot (p : Player) (hcap : p.errChan.cap = 1) :
    (p.errChan.buf = [] → ∀ e,
      p.PutErr e = { p with errChan := { p.errChan with buf := [e] } }) ∧
    (∀ e0, p.errChan.buf = [e0] → ∀ e, p.PutErr e = p) ∧
    (∀ e0, p.errChan.buf = [e0] →
      p.GetErr = (e0, { p with errChan := { p.errChan with buf := [] } })) ∧
    (p.errChan.buf = [] → p.GetErr = (none, p)) ∧
    (p.errChan.buf = [] → ∀ e1 es,
      ((e1 :: es).foldl Player.PutErr p).GetErr.1 = e1 ∧
      ((e1 :: es).foldl Player.PutErr p).GetErr.2.GetErr.1 = none) := by
  have hput : p.errChan.buf = [] → ∀ e,
      p.PutErr e = { p with errChan := { p.errChan with buf := [e] } } := by
    intro hb e
    simp [Player.PutErr, hcap, hb]
  have hget : ∀ (q : Player) e0, q.errChan.buf = [e0] →
      q.GetErr = (e0, { q with errChan := { q.errChan with buf := [] } }) := by
    intro q e0 hb
    simp [Player.GetErr, hb]
  refine ⟨hput, ?_, hget p, ?_, ?_⟩
  · intro e0 hb e
    simp [Player.PutErr, hcap, hb]
  · intro hb
    simp [Player.GetErr, hb]
  · intro hb e1 es
    have hfirst := hput hb e1
    have hrest : (e1 :: es).foldl Player.PutErr p
        = { p with errChan := { p.errChan with buf := [e1] } } := by
      rw [List.foldl_cons, hfirst]
      exact Player.PutErr_occupied { p with errChan := { p.errChan with buf := [e1] } }
        hcap e1 rfl es
    rw [hrest, hget _ e1 rfl]
    exact ⟨rfl, by simp [Player.GetErr]⟩

/-- Three errors are put in the empty single slot of a player; the first
`GetErr` returns the first of them and the second returns nil, through
`Player.errChan_single_slot`. -/
theorem Player.errChan_single_slot_witness :
    ([some Error.EOF, some Error.ErrUnexpectedEOF, some (Error.other 3)].foldl Player.PutErr
        (exampleHeap 1)).GetErr.1 = some Error.EOF ∧
      ([some Error.EOF, some Error.ErrUnexpectedEOF, some (Error.other 3)].foldl Player.PutErr
        (exampleHeap 1)).GetErr.2.GetErr.1 = none ∧
      (exampleHeap 1).GetErr = (none, exampleHeap 1) ∧
      ((exampleHeap 1).PutErr (some Error.EOF)).PutErr (some (Error.other 3))
        = (exampleHeap 1).PutErr (some Error.EOF) ∧
      ((exampleHeap 1).PutErr (some Error.EOF)).GetErr
        = (some Error.EOF, exampleHeap 1) := by
  have h := Player.errChan_single_slot (exampleHeap 1) rfl
  have h5 := h.2.2.2.2 rfl (some Error.EOF) [some Error.ErrUnexpectedEOF, some (Error.other 3)]
  have hp := Player.errChan_single_slot ((exampleHeap 1).PutErr (some Error.EOF)) rfl
  exact ⟨h5.1, h5.2, h.2.2.2.1 rfl, hp.2.1 (some Error.EOF) rfl (some (Error.other 3)),
    (hp.2.2.1 (some Error.EOF) rfl).trans (by decide)⟩

/-! ## `Tuple`: a field without the capability -/

/-- When the fields before a field without `ReadFrom` are read with success,
`Tuple.ReadFrom` panics, whatever fields follow. -/
theorem Tuple.ReadFrom_panics_at_missing_decoder {M R W : Type} (pre post : Tuple M R W)
    (v : Field M R W) (m m1 : M) (r r1 : R) (n1 : ℤ)
    (hpre : Tuple.ReadFrom pre m r = .ret n1 none (m1, r1)) (hv : v.decoder = none) :
    Tuple.ReadFrom (pre ++ v :: post) m r = .panic := by
  unfold Tuple.ReadFrom at *
  rw [Tuple.readLoop_append pre (v :: post) 0 m r n1 m1 r1 hpre]
  simp [Tuple.readLoop, Field.ReadFrom, hv]

/-- When the fields before a field without `WriteTo` are written with
success, `Tuple.WriteTo` panics, whatever fields follow. -/
theorem Tuple.WriteTo_panics_at_missing_encoder {M R W : Type} (pre post : Tuple M R W)
    (v : Field M R W) (m : M) (w w1 : W) (n1 : ℤ)
    (hpre : Tuple.WriteTo pre m w = .ret n1 none w1) (hv : v.encoder = none) :
    Tuple.WriteTo (pre ++ v :: post) m w = .panic := by
  unfold Tuple.WriteTo at *
  rw [Tuple.writeLoop_append pre (v :: post) 0 m w n1 w1 hpre]
  simp [Tuple.writeLoop, Field.WriteTo, hv]

/-- Claim C19 at a failing input: the fields `&x, pk.Int(5)` read from an
empty source.  The second field has no `ReadFrom`, yet `Tuple.ReadFrom` does
not panic: the first field fails at the end of the source and the loop
returns its error before the type assertion on the second field is
evaluated.  With four bytes in the source the same tuple panics. -/
theorem Tuple.ReadFrom_missing_decoder_not_reached :
    (intConst .Int 5).decoder = none ∧
      Tuple.ReadFrom [intVar .Int 0, intConst .Int 5] [0] [] = .ret 0 (some .EOF) ([0], []) ∧
      Tuple.ReadFrom [intVar .Int 0, intConst .Int 5] [0] [0, 0, 0, 1] = .panic := by
  refine ⟨rfl, ?_, ?_⟩ <;> decide

/-! ## `Ary`: a failing element -/

theorem Ary.readLoop_failure {A R W : Type} (E : ElemType A R W)
    (dec : A → R → Result (A × R)) (hdec : E.decoder = some dec) :
    ∀ (done : List (A × ℤ)) (slots : List A) (n : ℤ) (r r1 r2 : R) (p : ℤ) (e : Error)
      (xi : A),
    Ary.Decodes dec E.zero done r r1 →
    dec E.zero r1 = .ret p (some e) (xi, r2) →
    Ary.readLoop E (List.replicate done.length E.zero ++ E.zero :: slots) n r
      = .ret (n + (done.map Prod.snd).sum + p) (some e)
          (done.map Prod.fst ++ xi :: slots, r2) := by
  intro done
  induction done with
  | nil =>
    intro slots n r r1 r2 p e xi hd hf
    simp only [Ary.Decodes] at hd
    subst hd
    simp [Ary.readLoop, hdec, hf]
  | cons d done ih =>
    intro slots n r r1 r2 p e xi hd hf
    obtain ⟨x, nn⟩ := d
    obtain ⟨r0, hx, hrest⟩ := hd
    have ih2 := ih slots (n + nn) r0 r1 r2 p e xi hrest hf
    simp only [List.length_cons, List.replicate_succ, List.cons_append, Ary.readLoop, hdec, hx,
      Option.isSome_none, Bool.false_eq_true, if_false, List.append_eq, ih2, List.map_cons,
      List.sum_cons, add_assoc]

theorem Ary.writeLoop_failure {A R W : Type} (E : ElemType A R W) :
    ∀ (done : List (A × ℤ)) (post : List A) (v : A) (enc : W → Result W) (n : ℤ)
      (w w1 w2 : W) (p : ℤ) (e : Error),
    Ary.Encodes E done w w1 → E.encoder v = some enc →
    enc w1 = .ret p (some e) w2 →
    Ary.writeLoop E (done.map Prod.fst ++ v :: post) n w
      = .ret (n + (done.map Prod.snd).sum + p) (some e) w2 := by
  intro done
  induction done with
  | nil =>
    intro post v enc n w w1 w2 p e hd he hf
    simp only [Ary.Encodes] at hd
    subst hd
    simp [Ary.writeLoop, he, hf]
  | cons d done ih =>
    intro post v enc n w w1 w2 p e hd he hf
    obtain ⟨x, nn⟩ := d
    obtain ⟨encx, w0, hencx, hx, hrest⟩ := hd
    have ih2 := ih post v enc (n + nn) w0 w1 w2 p e hrest he hf
    simp only [List.map_cons, List.cons_append, Ary.writeLoop, hencx, hx, Option.isSome_none,
      Bool.false_eq_true, if_false, List.append_eq, ih2, List.sum_cons, add_assoc]

theorem Ary.ReadFrom_failure {A R W : Type} (L : LenType R W) (E : ElemType A R W)
    (dec : A → R → Result (A × R)) (hdec : E.decoder = some dec)
    (cur : List A) (r r1 r2 r3 : R) (n v p : ℤ) (done : List (A × ℤ)) (e : Error) (xi : A)
    (hlen : L.ReadFrom 0 r = .ret n none (v, r1))
    (hi : (done.length : ℤ) < v) (hmax : v ≤ (E.maxLen : ℤ))
    (hdone : Ary.Decodes dec E.zero done r1 r2)
    (hfail : dec E.zero r2 = .ret p (some e) (xi, r3)) :
    Ary.ReadFrom L E cur r
      = .ret (n + (done.map Prod.snd).sum + p) (some e)
          (done.map Prod.fst ++ xi :: List.replicate (v.toNat - done.length - 1) E.zero, r3) := by
  have hnot : ¬ (v < 0 ∨ (E.maxLen : ℤ) < v) := by omega
  have hsplit : List.replicate v.toNat E.zero
      = List.replicate done.length E.zero
        ++ E.zero :: List.replicate (v.toNat - done.length - 1) E.zero := by
    have hk : v.toNat = done.length + (1 + (v.toNat - done.length - 1)) := by omega
    conv_lhs => rw [hk]
    rw [List.replicate_add, List.replicate_add]
    rfl
  simp only [Ary.ReadFrom, hlen, Option.isSome_none, Bool.false_eq_true, if_false, makeSlice,
    hnot, hsplit]
  exact Ary.readLoop_failure E dec hdec done _ n r1 r2 r3 p e xi hdone hfail

/-- Claim C18. Let the length decode to `v`, a length that `make` accepts,
let the elements at the indices below `i` decode with success and the
element at index `i < v` fail.  Then `Ary.ReadFrom` returns that element's
error, leaves the source as the failing decoder left it (no later element
is decoded), and leaves a sequence of length `v` whose first `i` elements
are the decoded values and whose elements after index `i` are all the zero
value of `A`. -/
theorem Ary.ReadFrom_abort_at_first_failure {A R W : Type} (L : LenType R W)
    (E : ElemType A R W) (dec : A → R → Result (A × R)) (hdec : E.decoder = some dec)
    (cur : List A) (r r1 r2 r3 : R) (n v p : ℤ) (done : List (A × ℤ)) (e : Error) (xi : A)
    (hlen : L.ReadFrom 0 r = .ret n none (v, r1))
    (hi : (done.length : ℤ) < v) (hmax : v ≤ (E.maxLen : ℤ))
    (hdone : Ary.Decodes dec E.zero done r1 r2)
    (hfail : dec E.zero r2 = .ret p (some e) (xi, r3)) :
    ∃ n1 a1, Ary.ReadFrom L E cur r = .ret n1 (some e) (a1, r3) ∧
      (a1.length : ℤ) = v ∧
      a1.take done.length = done.map Prod.fst ∧
      (∀ j : Nat, done.length < j → (j : ℤ) < v → a1[j]? = some E.zero) ∧
      a1 = done.map Prod.fst ++ xi :: List.replicate (v.toNat - done.length - 1) E.zero := by
  refine ⟨_, _, Ary.ReadFrom_failure L E dec hdec cur r r1 r2 r3 n v p done e xi hlen hi hmax
    hdone hfail, ?_, ?_, ?_, rfl⟩
  · simp only [List.length_append, List.length_map, List.length_cons, List.length_replicate]
    omega
  · rw [List.take_append_of_le_length (by simp)]
    exact List.take_of_length_le (by simp)
  · intro j hj hjv
    rw [List.getElem?_append_right (by simp; omega)]
    simp only [List.length_map]
    obtain ⟨k, hk⟩ : ∃ k, j - done.length = k + 1 := ⟨j - done.length - 1, by omega⟩
    rw [hk, List.getElem?_cons_succ, List.getElem?_replicate]
    have : k < v.toNat - done.length - 1 := by omega
    simp [this]

/-- Three `Int` elements are announced by the `VarInt` length `03`, the first
is there, the second is cut short after two bytes: through
`Ary.ReadFrom_abort_at_first_failure` the sequence left is `[1, 0, 0]`. -/
theorem Ary.ReadFrom_abort_at_first_failure_witness :
    ∃ n1 a1,
      Ary.ReadFrom Integers.VarInt.lenType Integers.Int.elemType [] [3, 0, 0, 0, 1, 0, 0]
          = .ret n1 (some .ErrUnexpectedEOF) (a1, []) ∧
        (a1.length : ℤ) = 3 ∧
        a1.take 1 = [1] ∧
        (∀ j : Nat, 1 < j → (j : ℤ) < 3 → a1[j]? = some 0) ∧
        a1 = [1, 0, 0] :=
  Ary.ReadFrom_abort_at_first_failure Integers.VarInt.lenType Integers.Int.elemType
    Integers.Int.ReadFrom rfl [] [3, 0, 0, 0, 1, 0, 0] [0, 0, 0, 1, 0, 0] [0, 0] [] 1 3 2
    [(1, 4)] .ErrUnexpectedEOF 0 (by decide) (by decide) (by decide)
    ⟨[0, 0], by decide, rfl⟩ (by decide)

/-- Claim C20. When the element at index `i` fails, after the length and
the elements before it went through with success, `Ary.ReadFrom` and
`Ary.WriteTo` return the count of the length plus the counts of the
elements before index `i` plus the count that the failing element reports.
When the length itself fails, they return the count and error of the length
codec, the source or sink is as the length codec left it (no element is
processed), and `ReadFrom` leaves the destination sequence as it was. -/
theorem Ary.count_on_failure {A R W : Type} (L : LenType R W) (E : ElemType A R W)
    (cur : List A) (r : R) (w : W) :
    (∀ dec r1 r2 r3 n v p (done : List (A × ℤ)) e xi,
      E.decoder = some dec → L.ReadFrom 0 r = .ret n none (v, r1) →
      (done.length : ℤ) < v → v ≤ (E.maxLen : ℤ) →
      Ary.Decodes dec E.zero done r1 r2 → dec E.zero r2 = .ret p (some e) (xi, r3) →
      ∃ a1, Ary.ReadFrom L E cur r
        = .ret (n + (done.map Prod.snd).sum + p) (some e) (a1, r3)) ∧
    (∀ (done : List (A × ℤ)) (post : List A) (v : A) enc w1 w2 w3 n p e,
      L.WriteTo (L.conv ((done.map Prod.fst ++ v :: post).length : ℤ)) w = .ret n none w1 →
      Ary.Encodes E done w1 w2 → E.encoder v = some enc → enc w2 = .ret p (some e) w3 →
      Ary.WriteTo L E (done.map Prod.fst ++ v :: post) w
        = .ret (n + (done.map Prod.snd).sum + p) (some e) w3) ∧
    (∀ n e v r1, L.ReadFrom 0 r = .ret n (some e) (v, r1) →
      Ary.ReadFrom L E cur r = .ret n (some e) (cur, r1)) ∧
    (∀ (a : List A) n e w1, L.WriteTo (L.conv (a.length : ℤ)) w = .ret n (some e) w1 →
      Ary.WriteTo L E a w = .ret n (some e) w1) := by
  refine ⟨?_, ?_, ?_, ?_⟩
  · intro dec r1 r2 r3 n v p done e xi hdec hlen hi hmax hdone hfail
    exact ⟨_, Ary.ReadFrom_failure L E dec hdec cur r r1 r2 r3 n v p done e xi hlen hi hmax
      hdone hfail⟩
  · intro done post v enc w1 w2 w3 n p e hlen hdone henc hfail
    simp only [Ary.WriteTo, hlen, Option.isSome_none, Bool.false_eq_true, if_false]
    exact Ary.writeLoop_failure E done post v enc n w1 w2 w3 p e hdone henc hfail
  · intro n e v r1 hlen
    simp [Ary.ReadFrom, hlen]
  · intro a n e w1 hlen
    simp [Ary.WriteTo, hlen]

/-- `Ary.count_on_failure` at four inputs.  Reading `Ary[VarInt, Int]` from
`03 00 00 00 01 00 00 00 02 00 00`: the count is 1 + 4 + 4 + 2.  Writing
`[1, 2, 3]` as `Ary[VarInt, Int]` to a sink with room for seven bytes: the
count is 1 + 4 + 2.  Reading `Ary[Int, Int]` from the two bytes `00 00` into
a destination that holds `[7]`: the count is 2 and the destination still
holds `[7]`.  Writing to a sink without room: the count is 0. -/
theorem Ary.count_on_failure_witness :
    (∃ a1, Ary.ReadFrom Integers.VarInt.lenType Integers.Int.elemType [7]
        [3, 0, 0, 0, 1, 0, 0, 0, 2, 0, 0]
      = .ret (1 + ([(1, 4), (2, 4)].map Prod.snd).sum + 2) (some .ErrUnexpectedEOF) (a1, [])) ∧
    Ary.WriteTo Integers.VarInt.lenTypeLimited Integers.Int.elemTypeLimited
        ([(1, 4)].map Prod.fst ++ 2 :: [3]) ⟨[], 7⟩
      = .ret (1 + ([((1 : ℤ), (4 : ℤ))].map Prod.snd).sum + 2) (some (.other 2))
          ⟨[3, 0, 0, 0, 1, 0, 0], 0⟩ ∧
    Ary.ReadFrom Integers.Int.lenType Integers.Int.elemType [7] [0, 0]
      = .ret 2 (some .ErrUnexpectedEOF) ([7], []) ∧
    Ary.WriteTo Integers.VarInt.lenTypeLimited Integers.Int.elemTypeLimited [1, 2, 3] ⟨[], 0⟩
      = .ret 0 (some (.other 2)) ⟨[], 0⟩ := by
  refine ⟨?_, ?_, ?_, ?_⟩
  · exact (Ary.count_on_failure Integers.VarInt.lenType Integers.Int.elemType [7]
      [3, 0, 0, 0, 1, 0, 0, 0, 2, 0, 0] []).1 Integers.Int.ReadFrom
      [0, 0, 0, 1, 0, 0, 0, 2, 0, 0] [0, 0] [] 1 3 2 [(1, 4), (2, 4)] .ErrUnexpectedEOF 0
      rfl (by decide) (by decide) (by decide)
      ⟨[0, 0, 0, 2, 0, 0], by decide, [0, 0], by decide, rfl⟩ (by decide)
  · exact (Ary.count_on_failure Integers.VarInt.lenTypeLimited Integers.Int.elemTypeLimited []
      [] ⟨[], 7⟩).2.1 [(1, 4)] [3] 2 (Integers.Int.WriteToLimited 2) ⟨[3], 6⟩
      ⟨[3, 0, 0, 0, 1], 2⟩ ⟨[3, 0, 0, 0, 1, 0, 0], 0⟩ 1 2 (.other 2) (by decide)
      ⟨Integers.Int.WriteToLimited 1, ⟨[3, 0, 0, 0, 1], 2⟩, rfl, by decide, rfl⟩ rfl
      (by decide)
  · exact (Ary.count_on_failure Integers.Int.lenType Integers.Int.elemType [7]
      [0, 0] []).2.2.1 2 .ErrUnexpectedEOF 0 [] (by decide)
  · exact (Ary.count_on_failure Integers.VarInt.lenTypeLimited Integers.Int.elemTypeLimited []
      [] ⟨[], 0⟩).2.2.2 [1, 2, 3] 0 (.other 2) ⟨[], 0⟩ (by decide)

/-! ## `GlobalChat`: the fan-out of `broadcast` -/

theorem GlobalChat.broadcast_count (packet : Packet) :
    ∀ (l : List (Sigma fun _ : Nat => Nat)) (h : Heap) (a : Nat),
    l.foldl (fun h1 e => Heap.WritePacket h1 e.2 packet) h a
      = (fun pl : Player => pl.WritePacket packet)^[(l.map fun e => e.2).count a] (h a) := by
  intro l
  induction l with
  | nil => intro h a; rfl
  | cons e l ih =>
    intro h a
    simp only [List.foldl_cons, List.map_cons]
    rw [ih]
    by_cases hae : e.2 = a
    · subst hae
      rw [Heap.WritePacket_same, List.count_cons_self, Function.iterate_succ_apply]
    · rw [Heap.WritePacket_other _ _ _ _ (Ne.symm hae), List.count_cons_of_ne (Ne.symm hae)]

/-- Claim C15. For every registry, heap and packet, `broadcast` calls
`WritePacket` on each player once for every registry entry that holds it and
touches no other player.  In a registry whose entries are stored under their
players' own UUIDs, as `Run` builds them, that is exactly once for every
registered player: an open queue gains the packet at its tail, a player
whose queue is closed is left as it was.  The registry is not changed.  The
heap that results is the same for every order of the registry entries, and
the state that results for a player depends on no other player's state. -/
theorem GlobalChat.broadcast_fan_out (g : GlobalChat) (packet : Packet) (h : Heap) :
    (∀ a, g.broadcast packet h a
      = (fun pl : Player => pl.WritePacket packet)^[(g.players.entries.map fun e => e.2).count a]
          (h a)) ∧
    (g.keyed h → ∀ e ∈ g.players.entries,
      g.broadcast packet h e.2 = (h e.2).WritePacket packet ∧
      ((h e.2).packetQueue.closed = false →
        (g.broadcast packet h e.2).packetQueue
          = ⟨(h e.2).packetQueue.queue ++ [packet], false⟩) ∧
      ((h e.2).packetQueue.closed = true → g.broadcast packet h e.2 = h e.2)) ∧
    (∀ a, (∀ e ∈ g.players.entries, e.2 ≠ a) → g.broadcast packet h a = h a) ∧
    (∀ (C : ChatPackets) (p : Nat) (text : String), (g.handle C h (.msg p text)).1 = g) ∧
    (∀ g2 : GlobalChat, g2.players.entries.Perm g.players.entries →
      g2.broadcast packet h = g.broadcast packet h) ∧
    (∀ (h2 : Heap) (a : Nat), h2 a = h a → g.broadcast packet h2 a = g.broadcast packet h a) := by
  have hcount := fun (g1 : GlobalChat) (h1 : Heap) (a : Nat) =>
    GlobalChat.broadcast_count packet g1.players.entries h1 a
  refine ⟨hcount g h, ?_, ?_, fun _ _ _ => rfl, ?_, ?_⟩
  · intro hk e he
    have hone : g.broadcast packet h e.2 = (h e.2).WritePacket packet :=
      (GlobalChat.broadcast_entries packet g.players.entries h (g.keyed_nodup h hk)).1 e he
    refine ⟨hone, ?_, ?_⟩
    · intro hc
      rw [hone]
      simp only [Player.WritePacket, PacketQueue.Push, hc, Bool.not_false, if_true]
    · intro hc
      rw [hone]
      simp [Player.WritePacket, PacketQueue.Push, hc]
  · intro a ha
    have h0 : (g.players.entries.map fun e => e.2).count a = 0 := by
      rw [List.count_eq_zero]
      intro hmem
      obtain ⟨e, he, hea⟩ := List.mem_map.mp hmem
      exact ha e he hea
    have := hcount g h a
    rw [h0] at this
    exact this
  · intro g2 hperm
    funext a
    have h1 := hcount g2 h a
    have h2 := hcount g h a
    simp only [GlobalChat.broadcast] at h1 h2 ⊢
    rw [h1, h2, (hperm.map fun e => e.2).count_eq]
  · intro h2 a ha
    have h1 := hcount g h2 a
    have h3 := hcount g h a
    simp only [GlobalChat.broadcast] at h1 h3 ⊢
    rw [h1, h3, ha]

/-- Two registered players, the first with an open queue and the second
with a closed one that still holds a packet: through
`GlobalChat.broadcast_fan_out` the first queue gains the packet and the
second player is left as it was. -/
theorem GlobalChat.broadcast_fan_out_witness :
    ((GlobalChat.mk ((AList.singleton 101 1).insert 102 2)).broadcast ⟨15, [0]⟩
        (Function.update exampleHeap 2
          { exampleHeap 2 with packetQueue := ⟨[⟨15, [1]⟩], true⟩ }) 1).packetQueue
      = ⟨[] ++ [⟨15, [0]⟩], false⟩ ∧
    (GlobalChat.mk ((AList.singleton 101 1).insert 102 2)).broadcast ⟨15, [0]⟩
        (Function.update exampleHeap 2
          { exampleHeap 2 with packetQueue := ⟨[⟨15, [1]⟩], true⟩ }) 2
      = { exampleHeap 2 with packetQueue := ⟨[⟨15, [1]⟩], true⟩ } := by
  have hk : (GlobalChat.mk ((AList.singleton 101 1).insert 102 2)).keyed
      (Function.update exampleHeap 2
        { exampleHeap 2 with packetQueue := ⟨[⟨15, [1]⟩], true⟩ }) := by
    intro e he
    have he2 : e = ⟨102, 2⟩ ∨ e = ⟨101, 1⟩ := by
      simpa [AList.insert_entries, AList.singleton, List.kerase] using he
    rcases he2 with rfl | rfl <;> decide
  have h := (GlobalChat.broadcast_fan_out (GlobalChat.mk ((AList.singleton 101 1).insert 102 2))
    ⟨15, [0]⟩ (Function.update exampleHeap 2
      { exampleHeap 2 with packetQueue := ⟨[⟨15, [1]⟩], true⟩ })).2.1 hk
  have h1 := (h ⟨101, 1⟩ (by decide)).2.1 (by decide)
  have h2 := (h ⟨102, 2⟩ (by decide)).2.2 (by decide)
  exact ⟨h1, h2.trans (by simp [Function.update])⟩

/-! ## `PacketQueue`: `Close` and the goroutines waiting in `Pull` -/

theorem PullSystem.attempt_closed (s : PullSystem) (id : Nat) (hc : s.q.closed = true) :
    s.attempt id = { s with returned := s.returned ++ [(id, (⟨0, []⟩, false))] } := by
  have hp : s.q.Pull = some ((⟨0, []⟩, false), s.q) := by
    obtain ⟨q, waiting, woken, returned⟩ := s
    obtain ⟨queue, closed⟩ := q
    simp only at hc
    subst hc
    cases queue <;> rfl
  simp [PullSystem.attempt, hp]

/-- One step on a closed queue without waiters: the queue stays closed, no
goroutine begins to wait, no result is lost, a released goroutine stays
released or returns the closed indication, and it returns the closed
indication if the step is its own. -/
theorem PullSystem.step_closed (s : PullSystem) (st : SysStep)
    (hc : s.q.closed = true) (hw : s.waiting = []) :
    (s.step st).q.closed = true ∧ (s.step st).waiting = [] ∧
    (∀ x ∈ s.returned, x ∈ (s.step st).returned) ∧
    (∀ id ∈ s.woken,
      id ∈ (s.step st).woken ∨ (id, (⟨0, []⟩, false)) ∈ (s.step st).returned) ∧
    (∀ id ∈ s.woken, st = SysStep.resume id →
      (id, (⟨0, []⟩, false)) ∈ (s.step st).returned) := by
  cases st with
  | pull id1 =>
    simp only [PullSystem.step, hw, List.not_mem_nil, false_or]
    by_cases h1 : id1 ∈ s.woken
    · simp only [h1, if_true]
      exact ⟨hc, hw, fun _ h => h, fun _ h => Or.inl h, fun _ _ h => nomatch h⟩
    · simp only [h1, if_false, PullSystem.attempt_closed s id1 hc]
      exact ⟨hc, hw, fun _ h => List.mem_append_left _ h, fun _ h => Or.inl h,
        fun _ _ h => nomatch h⟩
  | resume id1 =>
    simp only [PullSystem.step]
    by_cases h1 : id1 ∈ s.woken
    · simp only [h1, if_true]
      rw [PullSystem.attempt_closed { s with woken := s.woken.erase id1 } id1 hc]
      refine ⟨hc, hw, fun _ h => List.mem_append_left _ h, ?_, ?_⟩
      · intro id hid
        by_cases heq : id = id1
        · subst heq
          exact Or.inr (List.mem_append_right _ (List.mem_singleton.mpr rfl))
        · exact Or.inl ((List.mem_erase_of_ne heq).mpr hid)
      · intro id _ heq
        simp only [SysStep.resume.injEq] at heq
        subst heq
        exact List.mem_append_right _ (List.mem_singleton.mpr rfl)
    · simp only [h1, if_false]
      refine ⟨hc, hw, fun _ h => h, fun _ h => Or.inl h, ?_⟩
      intro id hid heq
      simp only [SysStep.resume.injEq] at heq
      subst heq
      exact absurd hid h1
  | push packet =>
    simp only [PullSystem.step, hw, List.drop_nil, List.take_nil, List.append_nil]
    exact ⟨by simp [PacketQueue.Push, hc], trivial, fun _ h => h, fun _ h => Or.inl h,
      fun _ _ h => nomatch h⟩
  | close =>
    simp only [PullSystem.step, hw, List.append_nil]
    exact ⟨rfl, trivial, fun _ h => h, fun _ h => Or.inl h, fun _ _ h => nomatch h⟩

/-- Every schedule on a closed queue without waiters: the queue stays
closed, no goroutine waits, no result is lost, and a goroutine that was
released or had returned the closed indication is released or has returned
it, and has returned it if the schedule let it run. -/
theorem PullSystem.run_closed_system (id : Nat) (steps : List SysStep) :
    ∀ s : PullSystem, s.q.closed = true → s.waiting = [] →
    (s.run steps).q.closed = true ∧ (s.run steps).waiting = [] ∧
    (∀ x ∈ s.returned, x ∈ (s.run steps).returned) ∧
    ((id ∈ s.woken ∨ (id, (⟨0, []⟩, false)) ∈ s.returned) →
      (id ∈ (s.run steps).woken ∨ (id, (⟨0, []⟩, false)) ∈ (s.run steps).returned) ∧
      (SysStep.resume id ∈ steps → (id, (⟨0, []⟩, false)) ∈ (s.run steps).returned)) := by
  induction steps with
  | nil =>
    intro s hc hw
    exact ⟨hc, hw, fun _ h => h, fun hid => ⟨hid, fun h => absurd h (List.not_mem_nil _)⟩⟩
  | cons st steps ih =>
    intro s hc hw
    obtain ⟨k1, k2, k3, k4, k5⟩ := PullSystem.step_closed s st hc hw
    obtain ⟨i1, i2, i3, i4⟩ := ih (s.step st) k1 k2
    refine ⟨i1, i2, fun x h => i3 x (k3 x h), ?_⟩
    intro hid
    have hid1 : id ∈ (s.step st).woken ∨ (id, (⟨0, []⟩, false)) ∈ (s.step st).returned := by
      rcases hid with h | h
      · exact k4 id h
      · exact Or.inr (k3 _ h)
    refine ⟨(i4 hid1).1, ?_⟩
    intro hmem
    rcases List.mem_cons.mp hmem with heq | hrest
    · rcases hid with h | h
      · exact i3 _ (k5 id h heq.symm)
      · exact i3 _ (k3 _ h)
    · exact (i4 hid1).2 hrest

/-- Claim C17. Let the goroutines `ids`, any number of them, be suspended in
`Pull` (as happens on an empty open queue only).  One `Close` releases every
one of them and leaves no goroutine waiting.  Whatever steps follow (released goroutines
taking the lock in any order, further calls of `Pull`, `Push` and `Close`),
the queue stays closed, no goroutine waits again, each goroutine of `ids` is
either released and free to run or has returned the closed indication, and
a goroutine of `ids` that has run has returned the zero packet with
`ok = false`. -/
theorem PullSystem.Close_wakes_all (s : PullSystem) (ids : List Nat)
    (hwait : s.waiting = ids) (steps : List SysStep) :
    (s.step .close).waiting = [] ∧
    (∀ id ∈ ids, id ∈ (s.step .close).woken) ∧
    ((s.step .close).run steps).q.closed = true ∧
    ((s.step .close).run steps).waiting = [] ∧
    (∀ id ∈ ids,
      (id ∈ ((s.step .close).run steps).woken ∨
        (id, (⟨0, []⟩, false)) ∈ ((s.step .close).run steps).returned) ∧
      (SysStep.resume id ∈ steps →
        (id, (⟨0, []⟩, false)) ∈ ((s.step .close).run steps).returned)) := by
  have hwoken : ∀ id ∈ ids, id ∈ (s.step .close).woken := by
    intro id hid
    simp only [PullSystem.step, hwait]
    exact List.mem_append_right _ hid
  have hinv := fun id => PullSystem.run_closed_system id steps (s.step .close) rfl rfl
  exact ⟨rfl, hwoken, (hinv 0).1, (hinv 0).2.1,
    fun id hid => (hinv id).2.2.2 (Or.inl (hwoken id hid))⟩

/-- On an empty open queue every call of `Pull` is suspended: after the
goroutines `ids` have called `Pull` they are all waiting, in the order of
their calls, and nothing else has changed. -/
theorem PullSystem.pull_blocks (q : PacketQueue) (hempty : q.queue = [])
    (hopen : q.closed = false) (ids : List Nat) (hnd : ids.Nodup) :
    ∀ (done : List Nat) (ret : List (Nat × Packet × Bool)),
    (∀ id ∈ ids, id ∉ done) →
    PullSystem.run ⟨q, done, [], ret⟩ (ids.map SysStep.pull) = ⟨q, done ++ ids, [], ret⟩ := by
  have hp : q.Pull = none := by
    obtain ⟨queue, closed⟩ := q
    simp only at hempty hopen
    subst hempty hopen
    rfl
  induction ids with
  | nil => intro done ret _; simp [PullSystem.run]
  | cons id ids ih =>
    intro done ret hfresh
    have hid : id ∉ done := hfresh id (List.mem_cons_self _ _)
    have hnd2 := (List.nodup_cons.mp hnd)
    have hstep : PullSystem.step ⟨q, done, [], ret⟩ (.pull id) = ⟨q, done ++ [id], [], ret⟩ := by
      simp [PullSystem.step, hid, PullSystem.attempt, hp]
    have := ih hnd2.2 (done ++ [id]) ret (by
      intro x hx hmem
      rcases List.mem_append.mp hmem with h | h
      · exact hfresh x (List.mem_cons_of_mem _ hx) h
      · rw [List.mem_singleton.mp h] at hx
        exact hnd2.1 hx)
    simp only [PullSystem.run, List.map_cons, List.foldl_cons, hstep] at this ⊢
    rw [this, List.append_assoc]
    rfl

/-- Three goroutines call `Pull` on a new queue and are suspended; `Close`
follows, then the goroutines 3, 1 and 2 run in that order with a `Push` in
between: through `PullSystem.Close_wakes_all` all three have returned the
closed indication. -/
theorem PullSystem.Close_wakes_all_witness :
    (PullSystem.run ⟨NewPacketQueue, [], [], []⟩ [.pull 1, .pull 2, .pull 3]).waiting
        = [1, 2, 3] ∧
      ∀ id ∈ [1, 2, 3],
        (id, (⟨0, []⟩, false)) ∈
          (((PullSystem.run ⟨NewPacketQueue, [], [], []⟩ [.pull 1, .pull 2, .pull 3]).step
            .close).run [.resume 3, .push ⟨7, []⟩, .resume 1, .resume 2]).returned := by
  refine ⟨by decide, ?_⟩
  intro id hid
  have h := (PullSystem.Close_wakes_all
    (PullSystem.run ⟨NewPacketQueue, [], [], []⟩ [.pull 1, .pull 2, .pull 3]) [1, 2, 3]
    (by decide) [.resume 3, .push ⟨7, []⟩, .resume 1, .resume 2]).2.2.2.2 id hid
  refine h.2 ?_
  simp only [List.mem_cons, List.mem_singleton, List.not_mem_nil, or_false] at hid
  rcases hid with rfl | rfl | rfl <;> decide

/-! ## `GlobalChat`: the `join` and `quit` events -/

theorem Player.WritePacket_iterate (packet : Packet) (k : Nat) :
    ∀ pl : Player,
    (fun q : Player => q.WritePacket packet)^[k] pl
      = { pl with packetQueue :=
            if pl.packetQueue.closed then pl.packetQueue
            else ⟨pl.packetQueue.queue ++ List.replicate k packet, false⟩ } := by
  induction k with
  | zero =>
    intro pl
    obtain ⟨name, uuid, eid, gm, ⟨queue, closed⟩, ec⟩ := pl
    cases closed <;> simp
  | succ k ih =>
    intro pl
    rw [Function.iterate_succ_apply, ih]
    obtain ⟨name, uuid, eid, gm, ⟨queue, closed⟩, ec⟩ := pl
    cases closed <;>
      simp [Player.WritePacket, PacketQueue.Push, List.replicate_succ]

/-- The queues after `broadcast`, for every registry: a player whose queue
is open has gained the packet at the tail of its queue once for every
registry entry that holds the player; a player whose queue is closed, like
a player that no entry holds, is as it was. -/
theorem GlobalChat.broadcast_queues (g : GlobalChat) (packet : Packet) (h : Heap) (a : Nat) :
    g.broadcast packet h a
      = { h a with packetQueue :=
            if (h a).packetQueue.closed then (h a).packetQueue
            else ⟨(h a).packetQueue.queue
              ++ List.replicate ((g.players.entries.map fun e => e.2).count a) packet, false⟩ } := by
  have h1 := GlobalChat.broadcast_count packet g.players.entries h a
  simp only [GlobalChat.broadcast]
  rw [h1, Player.WritePacket_iterate]

theorem GlobalChat.broadcast_unregistered (g : GlobalChat) (packet : Packet) (h : Heap)
    (a : Nat) (ha : ∀ e ∈ g.players.entries, e.2 ≠ a) : g.broadcast packet h a = h a := by
  have h0 : (g.players.entries.map fun e => e.2).count a = 0 := by
    rw [List.count_eq_zero]
    intro hmem
    obtain ⟨e, he, hea⟩ := List.mem_map.mp hmem
    exact ha e he hea
  have hq := GlobalChat.broadcast_queues g packet h a
  rw [h0] at hq
  rw [hq]
  generalize h a = pl
  obtain ⟨name, uuid, eid, gm, ⟨queue, closed⟩, ec⟩ := pl
  cases closed <;> simp

/-- Claim C10, amended. For every registry and every joining player `p`
that no registry entry holds yet, one `join` event leaves the queues as
follows.  Every player whose queue is open has gained the "joined" packet at
the tail of its queue once for every registry entry that holds it; in a
registry whose entries are stored under their players' own UUIDs, as `Run`
builds them, that is exactly once for every registered player: its queue is
the queue before followed by that one packet.  A registered player whose
queue is closed is left as it was (the `Push` discards the packet).  The
joining player is left as it was, so its queue has gained no packet, and so
is every player that is not registered.  Afterwards the registry maps the
UUID of `p` to `p`, and its entries for other UUIDs are as before. -/
theorem GlobalChat.join_broadcast (C : ChatPackets) (g : GlobalChat) (h : Heap) (p : Nat)
    (hnew : ∀ e ∈ g.players.entries, e.2 ≠ p) :
    (∀ a, (g.handle C h (.join p)).2 a
      = { h a with packetQueue :=
            if (h a).packetQueue.closed then (h a).packetQueue
            else ⟨(h a).packetQueue.queue
              ++ List.replicate ((g.players.entries.map fun e => e.2).count a)
                  (C.joined (h p).Name), false⟩ }) ∧
    (g.keyed h → ∀ e ∈ g.players.entries,
      ((h e.2).packetQueue.closed = false →
        ((g.handle C h (.join p)).2 e.2).packetQueue
          = ⟨(h e.2).packetQueue.queue ++ [C.joined (h p).Name], false⟩) ∧
      ((h e.2).packetQueue.closed = true → (g.handle C h (.join p)).2 e.2 = h e.2)) ∧
    ((g.handle C h (.join p)).2 p = h p ∧
      ((g.handle C h (.join p)).2 p).packetQueue.queue = (h p).packetQueue.queue) ∧
    (∀ a, (∀ e ∈ g.players.entries, e.2 ≠ a) → (g.handle C h (.join p)).2 a = h a) ∧
    (g.handle C h (.join p)).1.players.lookup (h p).UUID = some p ∧
    (∀ k, k ≠ (h p).UUID →
      (g.handle C h (.join p)).1.players.lookup k = g.players.lookup k) := by
  have hp : g.broadcast (C.joined (h p).Name) h p = h p :=
    GlobalChat.broadcast_unregistered g _ h p hnew
  refine ⟨fun a => GlobalChat.broadcast_queues g _ h a, ?_,
    ⟨hp, congrArg (fun pl : Player => pl.packetQueue.queue) hp⟩,
    fun a ha => GlobalChat.broadcast_unregistered g _ h a ha, ?_, ?_⟩
  · intro hk e he
    have hone : g.broadcast (C.joined (h p).Name) h e.2
        = (h e.2).WritePacket (C.joined (h p).Name) :=
      (GlobalChat.broadcast_entries _ g.players.entries h (g.keyed_nodup h hk)).1 e he
    constructor
    · intro hc
      show (g.broadcast (C.joined (h p).Name) h e.2).packetQueue = _
      rw [hone]
      simp only [Player.WritePacket, PacketQueue.Push, hc, Bool.not_false, if_true]
    · intro hc
      show g.broadcast (C.joined (h p).Name) h e.2 = _
      rw [hone]
      simp [Player.WritePacket, PacketQueue.Push, hc]
  · simp only [GlobalChat.handle, hp]
    exact AList.lookup_insert _
  · intro k hk
    simp only [GlobalChat.handle, hp]
    exact AList.lookup_insert_ne hk

theorem GlobalChat.keyed_busy :
    (GlobalChat.mk ((AList.singleton 103 3).insert 101 1)).keyed busyHeap := by
  intro e he
  have he2 : e = ⟨101, 1⟩ ∨ e = ⟨103, 3⟩ := by
    simpa [AList.insert_entries, AList.singleton, List.kerase] using he
  rcases he2 with rfl | rfl <;> decide

/-- The players 1 and 3 are registered, the queue of player 1 is open and
holds a chat packet, the queue of player 3 is closed; player 2 joins.
Through `GlobalChat.join_broadcast`: the queue of player 1 is the chat packet
followed by the one "joined" packet, player 3 and the joining player 2 are
as they were, and the registry maps the UUID 102 to player 2.  These are the
states that one `WritePacket` on player 1 and one on player 3 give. -/
theorem GlobalChat.join_broadcast_witness :
    (((GlobalChat.mk ((AList.singleton 103 3).insert 101 1)).handle examplePackets busyHeap
        (.join 2)).2 1).packetQueue = ⟨[⟨15, [0]⟩, ⟨15, [1]⟩], false⟩ ∧
      (((GlobalChat.mk ((AList.singleton 103 3).insert 101 1)).handle examplePackets busyHeap
        (.join 2)).2 3).packetQueue = ⟨[⟨15, [0]⟩], true⟩ ∧
      (((GlobalChat.mk ((AList.singleton 103 3).insert 101 1)).handle examplePackets busyHeap
        (.join 2)).2 2).packetQueue.queue = [] ∧
      ((GlobalChat.mk ((AList.singleton 103 3).insert 101 1)).handle examplePackets busyHeap
        (.join 2)).1.players.lookup 102 = some 2 ∧
      ((busyHeap 1).WritePacket ⟨15, [1]⟩).packetQueue = ⟨[⟨15, [0]⟩, ⟨15, [1]⟩], false⟩ ∧
      (busyHeap 3).WritePacket ⟨15, [1]⟩ = busyHeap 3 := by
  have h := GlobalChat.join_broadcast examplePackets
    (GlobalChat.mk ((AList.singleton 103 3).insert 101 1)) busyHeap 2
    (by
      intro e he
      have he2 : e = ⟨101, 1⟩ ∨ e = ⟨103, 3⟩ := by
        simpa [AList.insert_entries, AList.singleton, List.kerase] using he
      rcases he2 with rfl | rfl <;> decide)
  have hk := h.2.1 GlobalChat.keyed_busy
  have h1 := (hk ⟨101, 1⟩ (by decide)).1 (by decide)
  have h3 := (hk ⟨103, 3⟩ (by decide)).2 (by decide)
  refine ⟨h1.trans (by decide), ?_, h.2.2.1.2.trans (by decide), h.2.2.2.2.1, by decide,
    by decide⟩
  rw [h3]
  decide

/-- Claim C10 as stated fails.  Player 3, whose queue is closed, joins, then
player 1, whose open queue holds a chat packet, and then player 1 joins once
more (`AddPlayer` called twice on it).  At that last event player 1 is
registered already and the "joined" packet is pushed on the joining player's
own queue, behind the chat packet; and the registered player 3 gains no
packet, its queue being closed. -/
theorem GlobalChat.join_twice_notifies_self :
    ((NewGlobalChat.run examplePackets busyHeap [.join 3, .join 1]).2 1).packetQueue
        = ⟨[⟨15, [0]⟩], false⟩ ∧
      ((NewGlobalChat.run examplePackets busyHeap [.join 3, .join 1, .join 1]).2 1).packetQueue
        = ⟨[⟨15, [0]⟩, ⟨15, [1]⟩], false⟩ ∧
      ((NewGlobalChat.run examplePackets busyHeap [.join 3, .join 1, .join 1]).2 3).packetQueue
        = ⟨[⟨15, [0]⟩], true⟩ := by
  refine ⟨?_, ?_, ?_⟩ <;> decide

/-- Claim C11, amended. For every registry and every departing player `p`
that some registry entry holds, one `quit` event leaves the queues as
follows.  Every player whose queue is open has gained the "left" packet at
the tail of its queue once for every registry entry that holds it, the
departing player among them, at least once; in a registry whose entries are
stored under their players' own UUIDs, as `Run` builds them, that is exactly
once for the departing player and for every other registered player: the
queue is the queue before followed by that one packet.  A registered player
whose queue is closed is left as it was (the `Push` discards the packet),
and so is every player that is not registered.  The player is removed after
the broadcast: in such a registry the UUID of `p` was mapped to `p`, and
afterwards, in every registry, there is no entry for the UUID of `p` while
the entries for other UUIDs are as before. -/
theorem GlobalChat.quit_broadcast (C : ChatPackets) (g : GlobalChat) (h : Heap) (p : Nat)
    (hreg : ∃ e ∈ g.players.entries, e.2 = p) :
    (∀ a, (g.handle C h (.quit p)).2 a
      = { h a with packetQueue :=
            if (h a).packetQueue.closed then (h a).packetQueue
            else ⟨(h a).packetQueue.queue
              ++ List.replicate ((g.players.entries.map fun e => e.2).count a)
                  (C.left (h p).Name), false⟩ }) ∧
    1 ≤ (g.players.entries.map fun e => e.2).count p ∧
    (g.keyed h →
      ((h p).packetQueue.closed = false →
        ((g.handle C h (.quit p)).2 p).packetQueue
          = ⟨(h p).packetQueue.queue ++ [C.left (h p).Name], false⟩) ∧
      (∀ e ∈ g.players.entries,
        ((h e.2).packetQueue.closed = false →
          ((g.handle C h (.quit p)).2 e.2).packetQueue
            = ⟨(h e.2).packetQueue.queue ++ [C.left (h p).Name], false⟩) ∧
        ((h e.2).packetQueue.closed = true → (g.handle C h (.quit p)).2 e.2 = h e.2)) ∧
      g.players.lookup (h p).UUID = some p) ∧
    (∀ a, (∀ e ∈ g.players.entries, e.2 ≠ a) → (g.handle C h (.quit p)).2 a = h a) ∧
    (g.handle C h (.quit p)).1.players.lookup (h p).UUID = none ∧
    (∀ k, k ≠ (h p).UUID →
      (g.handle C h (.quit p)).1.players.lookup k = g.players.lookup k) := by
  obtain ⟨e, he, hep⟩ := hreg
  have hu : (g.broadcast (C.left (h p).Name) h p).UUID = (h p).UUID := by
    rw [GlobalChat.broadcast_queues]
  have hall : g.keyed h → ∀ e1 ∈ g.players.entries,
      ((h e1.2).packetQueue.closed = false →
        ((g.handle C h (.quit p)).2 e1.2).packetQueue
          = ⟨(h e1.2).packetQueue.queue ++ [C.left (h p).Name], false⟩) ∧
      ((h e1.2).packetQueue.closed = true → (g.handle C h (.quit p)).2 e1.2 = h e1.2) := by
    intro hk e1 he1
    have hone : g.broadcast (C.left (h p).Name) h e1.2
        = (h e1.2).WritePacket (C.left (h p).Name) :=
      (GlobalChat.broadcast_entries _ g.players.entries h (g.keyed_nodup h hk)).1 e1 he1
    constructor
    · intro hc
      show (g.broadcast (C.left (h p).Name) h e1.2).packetQueue = _
      rw [hone]
      simp only [Player.WritePacket, PacketQueue.Push, hc, Bool.not_false, if_true]
    · intro hc
      show g.broadcast (C.left (h p).Name) h e1.2 = _
      rw [hone]
      simp [Player.WritePacket, PacketQueue.Push, hc]
  refine ⟨fun a => GlobalChat.broadcast_queues g _ h a, ?_, ?_,
    fun a ha => GlobalChat.broadcast_unregistered g _ h a ha, ?_, ?_⟩
  · exact List.count_pos_iff.mpr (List.mem_map.mpr ⟨e, he, hep⟩)
  · intro hk
    refine ⟨?_, hall hk, ?_⟩
    · have := (hall hk e he).1
      rw [hep] at this
      exact this
    · have hkey := hk e he
      rw [hep] at hkey
      have heq : (⟨(h p).UUID, p⟩ : Sigma fun _ : Nat => Nat) = e := by
        cases e
        simp only at hkey hep
        subst hep
        rw [← hkey]
      exact Option.mem_def.mp (AList.mem_lookup_iff.mpr (heq ▸ he))
  · simp only [GlobalChat.handle, hu]
    exact AList.lookup_erase _ _
  · intro k hk
    simp only [GlobalChat.handle, hu]
    exact AList.lookup_erase_ne hk

/-- The players 1 and 3 are registered, the queue of player 1 is open and
holds a chat packet, the queue of player 3 is closed; player 1 leaves.
Through `GlobalChat.quit_broadcast`: the queue of the departing player 1 is
the chat packet followed by the one "left" packet, player 3 is as it was,
and the registry, which mapped the UUID 101 to player 1, has no entry for it
afterwards.  These are the states that one `WritePacket` on player 1 and one
on player 3 give. -/
theorem GlobalChat.quit_broadcast_witness :
    (((GlobalChat.mk ((AList.singleton 103 3).insert 101 1)).handle examplePackets busyHeap
        (.quit 1)).2 1).packetQueue = ⟨[⟨15, [0]⟩, ⟨15, [2]⟩], false⟩ ∧
      (((GlobalChat.mk ((AList.singleton 103 3).insert 101 1)).handle examplePackets busyHeap
        (.quit 1)).2 3).packetQueue = ⟨[⟨15, [0]⟩], true⟩ ∧
      (GlobalChat.mk ((AList.singleton 103 3).insert 101 1)).players.lookup 101 = some 1 ∧
      ((GlobalChat.mk ((AList.singleton 103 3).insert 101 1)).handle examplePackets busyHeap
        (.quit 1)).1.players.lookup 101 = none ∧
      ((busyHeap 1).WritePacket ⟨15, [2]⟩).packetQueue = ⟨[⟨15, [0]⟩, ⟨15, [2]⟩], false⟩ ∧
      (busyHeap 3).WritePacket ⟨15, [2]⟩ = busyHeap 3 := by
  have h := GlobalChat.quit_broadcast examplePackets
    (GlobalChat.mk ((AList.singleton 103 3).insert 101 1)) busyHeap 1
    ⟨⟨101, 1⟩, by decide, rfl⟩
  have hk := h.2.2.1 GlobalChat.keyed_busy
  have h1 := hk.1 (by decide)
  have h3 := (hk.2.1 ⟨103, 3⟩ (by decide)).2 (by decide)
  refine ⟨h1.trans (by decide), ?_, hk.2.2, h.2.2.2.2.1, by decide, by decide⟩
  rw [h3]
  decide

/-- Claim C11 as stated fails.  The players 3 and 1 have joined, the queue
of player 1 open and holding a chat packet, the queue of player 3 closed;
then a `quit` event arrives for player 2, who is not in the registry
(`RemovePlayer` on a player that never joined).  The broadcast goes to the
registered players: the queue of player 1 gains the "left" packet.  The
departing player's own queue, empty before the event, is empty after it; and
the registered player 3 gains no packet, its queue being closed. -/
theorem GlobalChat.quit_unregistered_not_notified :
    ((NewGlobalChat.run examplePackets busyHeap [.join 3, .join 1]).2 2).packetQueue.queue
        = [] ∧
      ((NewGlobalChat.run examplePackets busyHeap
        [.join 3, .join 1, .quit 2]).2 2).packetQueue.queue = [] ∧
      ((NewGlobalChat.run examplePackets busyHeap
        [.join 3, .join 1, .quit 2]).2 1).packetQueue = ⟨[⟨15, [0]⟩, ⟨15, [2]⟩], false⟩ ∧
      ((NewGlobalChat.run examplePackets busyHeap
        [.join 3, .join 1, .quit 2]).2 3).packetQueue = ⟨[⟨15, [0]⟩], true⟩ := by
  refine ⟨?_, ?_, ?_, ?_⟩ <;> decide

end GoMc
